import Mathlib

/-!
# Verification of the `convert_lora` core of `zimage.py`

This development shallowly embeds the core LoRA-conversion logic of
`zimage.py` (function `convert_lora`, lines 25-98) and proves properties of
it.  Keys are modelled as lists of characters (a Python `str` is a character
sequence); the Python substring / split / replace / rsplit operations are
re-implemented structurally below with the same semantics.  Tensors are
modelled as exact rationals: a 0-dimensional tensor is a `scalar`, a
2-dimensional tensor is a `mat` (list of rows); 1-dimensional tensors are
outside the model.  Floating-point rounding and tensor dtypes are outside
the model.  The slice assignment of line 84 follows PyTorch broadcasting:
a source that is 0-dimensional or 2-D of shape `(h, r)`, `(1, r)`, `(h, 1)`
or `(1, 1)` is expanded into the `h × r` block; any other source raises.
Python dictionaries are modelled as insertion-ordered association lists
with in-place overwrite, which is exactly the `dict` update semantics for
unique keys.
-/

namespace ZImage

/-- A key string, modelled as its character sequence. -/
abbrev Key := List Char

/-- Characters of a Lean string literal, used to write concrete keys. -/
def kOf (s : String) : Key := s.toList

/-- `isPreK pat s` : `pat` is a prefix of `s` (Python `startswith`). -/
def isPreK : Key → Key → Bool
  | [], _ => true
  | _ :: _, [] => false
  | a :: as, b :: bs => a = b && isPreK as bs

/-- `hasSubK pat s` : `pat` occurs as a contiguous substring of `s`
(Python `pat in s`). -/
def hasSubK (pat : Key) : Key → Bool
  | [] => pat.isEmpty
  | c :: s => isPreK pat (c :: s) || hasSubK pat s

/-- `endsK s pat` : `s` ends with `pat` (Python `s.endswith(pat)`). -/
def endsK (s pat : Key) : Bool := isPreK pat.reverse s.reverse

/-- Fuel-driven body of `replaceK`; the fuel is an upper bound on the number
of scanned positions, so the recursion is structural and kernel-reducible. -/
def replaceFuel (pat rep : Key) : Nat → Key → Key
  | 0, s => s
  | _ + 1, [] => []
  | fuel + 1, c :: s =>
    if isPreK pat (c :: s) then rep ++ replaceFuel pat rep fuel (List.drop pat.length (c :: s))
    else c :: replaceFuel pat rep fuel s

/-- Python `s.replace(pat, rep)`: replace all non-overlapping occurrences of
`pat` in `s` by `rep`, scanning left to right. -/
def replaceK (s pat rep : Key) : Key := replaceFuel pat rep (s.length + 1) s

/-- Python `s.split('.')`: split on every dot, keeping empty parts. -/
def splitDot : Key → List Key
  | [] => [[]]
  | c :: s =>
    if c = '.' then [] :: splitDot s
    else
      match splitDot s with
      | [] => [[c]]
      | p :: ps => (c :: p) :: ps

/-- Python `'.'.join(parts)`. -/
def joinDot : List Key → Key
  | [] => []
  | [p] => p
  | p :: ps => p ++ '.' :: joinDot ps

/-- Prefix of `s` before the last occurrence of `pat`, or `none` if `pat`
does not occur. -/
def rsplitAux (pat : Key) : Key → Option Key
  | [] => none
  | c :: s =>
    match rsplitAux pat s with
    | some p => some (c :: p)
    | none => if isPreK pat (c :: s) then some [] else none

/-- Python `s.rsplit(pat, 1)[0]`: everything before the last occurrence of
`pat`; the whole string when `pat` does not occur. -/
def rsplit1K (s pat : Key) : Key := (rsplitAux pat s).getD s

/-- A tensor: a 0-dimensional scalar or a 2-dimensional matrix given by its
rows, with exact rational entries. -/
inductive Tensor where
  | scalar (x : ℚ)
  | mat (m : List (List ℚ))
deriving DecidableEq

/-- The shape of a 2-dimensional tensor; `none` for a scalar (whose shape
cannot be unpacked into `h, r`) or for a ragged row list, which does not
represent a tensor. -/
def Tensor.shape2 : Tensor → Option (Nat × Nat)
  | .scalar _ => none
  | .mat m =>
    let c := (m.headD []).length
    if m.all (fun row => row.length = c) then some (m.length, c) else none

/-- Broadcast expansion of an `mh × mr` matrix to `h × r` (assuming the
dimensions are compatible, i.e. each of `mh`, `mr` equals the target or is
`1`): a dimension already of the target size is kept, a size-one dimension
is replicated to the target size. -/
def bcastBlock (m : List (List ℚ)) (mh mr h r : Nat) : List (List ℚ) :=
  let cols := if mr = r then m else m.map (fun row => List.replicate r (row.headD 0))
  if mh = h then cols else List.replicate h (cols.headD [])

/-- The content written by the slice assignment `qkv_B[a:b, c:d] = t` of an
`h × r` block (line 84): the source is broadcast to the block's shape.
PyTorch accepts a 0-dimensional source or a 2-D source of shape `(h, r)`,
`(1, r)`, `(h, 1)` or `(1, 1)` (each dimension must match the block or be
`1`) and writes its broadcast expansion; any other source raises. -/
def Tensor.broadcastTo (t : Tensor) (h r : Nat) : Option (List (List ℚ)) :=
  match t with
  | .scalar x => some (List.replicate h (List.replicate r x))
  | .mat m =>
    match (Tensor.mat m).shape2 with
    | some (mh, mr) =>
      if (mh = h ∨ mh = 1) ∧ (mr = r ∨ mr = 1) then some (bcastBlock m mh mr h r)
      else none
    | none => none

/-- `t` can be written into an `h × r` block by line 84's broadcasting
slice assignment: a 0-dimensional tensor, or a 2-D tensor whose every
dimension equals the block's or is `1`. -/
def broadcastableTo (t : Tensor) (h r : Nat) : Bool :=
  match t with
  | .scalar _ => true
  | .mat _ =>
    match t.shape2 with
    | some (mh, mr) => decide ((mh = h ∨ mh = 1) ∧ (mr = r ∨ mr = 1))
    | none => false

/-- The single element of a one-element tensor, `none` otherwise.  Python
`bool(tensor)` is defined exactly for one-element tensors. -/
def Tensor.item? : Tensor → Option ℚ
  | .scalar x => some x
  | .mat m =>
    match m.flatMap id with
    | [x] => some x
    | _ => none

/-- Python truthiness of a tensor: defined (`some`) only for one-element
tensors, true iff the element is nonzero; `none` models the `bool()` call
raising. -/
def Tensor.pyBool (t : Tensor) : Option Bool :=
  (t.item?).map (fun x => decide (x ≠ 0))

/-- `alpha_q * 3.0` (line 93): elementwise multiplication by three. -/
def Tensor.mul3 : Tensor → Tensor
  | .scalar x => .scalar (x * 3)
  | .mat m => .mat (m.map (fun row => row.map (fun x => x * 3)))

/-- The input / output weight map: an insertion-ordered association list
from key to tensor (a Python `dict`). -/
abbrev TMap := List (Key × Tensor)

/-- First-match lookup, i.e. `dict` lookup for maps with unique keys
(Python `d[k]` / `d.get(k)`). -/
def lookupK (m : TMap) (k : Key) : Option Tensor :=
  match m with
  | [] => none
  | p :: m => if p.1 = k then some p.2 else lookupK m k

/-- `d[k] = v` on an insertion-ordered dict: overwrite in place if the key
is present, else append. -/
def setK : TMap → Key → Tensor → TMap
  | [], k, v => [(k, v)]
  | p :: m, k, v => if p.1 = k then (k, v) :: m else p :: setK m k v

/-- Apply a sequence of `d[k] = v` writes in order. -/
def applyWrites (m : TMap) (ws : List (Key × Tensor)) : TMap :=
  ws.foldl (fun acc p => setK acc p.1 p.2) m

/-- The value of the last write to `k` in a write sequence, if any. -/
def lastWrite (ws : List (Key × Tensor)) (k : Key) : Option Tensor :=
  ws.foldl (fun acc p => if p.1 = k then some p.2 else acc) none

/-- One of the three projection axes. -/
inductive Axis where
  | q | k | v
deriving DecidableEq

/-- One of the two low-rank factors. -/
inductive Factor where
  | A | B
deriving DecidableEq

/-- The six candidate slots (`layer_groups[base][axis][factor]`) collected
for one merge-group key.  An axis is "present" in the nested `defaultdict`
iff at least one of its two factor slots was assigned. -/
structure GroupData where
  qA : Option Tensor
  qB : Option Tensor
  kA : Option Tensor
  kB : Option Tensor
  vA : Option Tensor
  vB : Option Tensor
deriving DecidableEq

def GroupData.empty : GroupData := ⟨none, none, none, none, none, none⟩

/-- `layer_groups[base][axis][factor] = t` (line 71), group part. -/
def GroupData.set (g : GroupData) : Axis → Factor → Tensor → GroupData
  | .q, .A, t => { g with qA := some t }
  | .q, .B, t => { g with qB := some t }
  | .k, .A, t => { g with kA := some t }
  | .k, .B, t => { g with kB := some t }
  | .v, .A, t => { g with vA := some t }
  | .v, .B, t => { g with vB := some t }

/-- `axis in qkv_dict`: the axis sub-dict exists iff some factor slot of the
axis was assigned. -/
def GroupData.axisPresent (g : GroupData) : Axis → Bool
  | .q => g.qA.isSome || g.qB.isSome
  | .k => g.kA.isSome || g.kB.isSome
  | .v => g.vA.isSome || g.vB.isSome

/-- `all(x in qkv_dict for x in ('q', 'k', 'v'))` (line 77). -/
def GroupData.complete (g : GroupData) : Bool :=
  g.axisPresent .q && g.axisPresent .k && g.axisPresent .v

/-- `layer_groups[base_key][attn_type][lora_type] = value` (line 71) on the
insertion-ordered outer dict: update the group in place if present, else
append a fresh group holding the one slot. -/
def updGroup : List (Key × GroupData) → Key → Axis → Factor → Tensor →
    List (Key × GroupData)
  | [], b, a, f, t => [(b, GroupData.empty.set a f t)]
  | p :: gs, b, a, f, t =>
    if p.1 = b then (b, p.2.set a f t) :: gs else p :: updGroup gs b a f t

/-! ## The key classifier (lines 49-74) -/

/-- `'.attention.to_out.0.'`, the output-projection marker of line 49. -/
def mOutProj : Key := kOf ".attention.to_out.0."

/-- `'.to_out.0.'`, the substring replaced on lines 50 and 56. -/
def mToOut0 : Key := kOf ".to_out.0."

/-- `'.out.'`, the replacement on lines 50 and 56. -/
def mOutRep : Key := kOf ".out."

/-- `'.attention.to_'`, the attention-projection marker of lines 60 and 63. -/
def mAttnTo : Key := kOf ".attention.to_"

/-- `'.alpha'`, the alpha marker of line 60. -/
def mDotAlpha : Key := kOf ".alpha"

/-- `'lora_A'`, the factor-A marker of line 52 (no dots). -/
def mLoraA : Key := kOf "lora_A"

/-- `'.lora_A'`, the rsplit separator of line 53. -/
def mDotLoraA : Key := kOf ".lora_A"

def segToQ : Key := kOf "to_q"
def segToK : Key := kOf "to_k"
def segToV : Key := kOf "to_v"
def segLoraA : Key := kOf "lora_A"
def segLoraB : Key := kOf "lora_B"

/-- `p in ('to_q', 'to_k', 'to_v')` on a path segment. -/
def isAxisSeg (p : Key) : Bool := p = segToQ || p = segToK || p = segToV

/-- `p in ('lora_A', 'lora_B')` on a path segment. -/
def isFactorSeg (p : Key) : Bool := p = segLoraA || p = segLoraB

/-- `attn_type = p[3:]` for an axis segment (line 65). -/
def axisOfSeg (p : Key) : Axis :=
  if p = segToQ then .q else if p = segToK then .k else .v

/-- The factor named by a factor segment (line 66). -/
def factorOfSeg (p : Key) : Factor :=
  if p = segLoraA then .A else .B

/-- The action the classifier chooses for one key, mirroring the first-match
rule chain of lines 49-74 (the spec's `ParsedKey`). -/
inductive KeyAction where
  /-- Line 49-58: rename `to_out.0`, plus possibly the sibling alpha; the
  field is the ordered list of `output_dict[k] = v` writes performed. -/
  | renameOut (ws : List (Key × Tensor))
  /-- Line 60-61: per-axis alpha, dropped. -/
  | skipAlpha
  /-- Line 63-72: captured into `layer_groups[base][axis][factor]`. -/
  | mergeCand (base : Key) (axis : Axis) (factor : Factor)
  /-- Line 74: copied through unchanged. -/
  | passthrough
deriving DecidableEq

/-- Classify one key, mirroring lines 49-74.  The full input map `d` is
needed for the sibling-alpha lookup of line 55. -/
def classifyKey (d : TMap) (kv : Key × Tensor) : KeyAction :=
  let key := kv.1
  if hasSubK mOutProj key then
    let newKey := replaceK key mToOut0 mOutRep
    let ws := [(newKey, kv.2)]
    let ws :=
      if hasSubK mLoraA key then
        let base := rsplit1K key mDotLoraA
        let alphaKey := base ++ mDotAlpha
        match lookupK d alphaKey with
        | some av => ws ++ [(replaceK alphaKey mToOut0 mOutRep, av)]
        | none => ws
      else ws
    .renameOut ws
  else if hasSubK mAttnTo key && hasSubK mDotAlpha key then .skipAlpha
  else if hasSubK mAttnTo key &&
      (hasSubK (kOf ".to_q.") key || hasSubK (kOf ".to_k.") key ||
        hasSubK (kOf ".to_v.") key) then
    let parts := splitDot key
    let attn := parts.find? isAxisSeg
    let lora := parts.find? isFactorSeg
    match attn, lora with
    | some a, some l =>
      let baseParts := parts.filter (fun p => !isAxisSeg p)
      let base := joinDot baseParts.dropLast.dropLast
      .mergeCand base (axisOfSeg a) (factorOfSeg l)
    | _, _ => .passthrough
  else .passthrough

/-- The ordered `output_dict` writes the loop body performs for one key. -/
def stepWrites (d : TMap) (kv : Key × Tensor) : List (Key × Tensor) :=
  match classifyKey d kv with
  | .renameOut ws => ws
  | .skipAlpha => []
  | .mergeCand _ _ _ => []
  | .passthrough => [kv]

/-- The `layer_groups` update the loop body performs for one key. -/
def gstep (d : TMap) (gs : List (Key × GroupData)) (kv : Key × Tensor) :
    List (Key × GroupData) :=
  match classifyKey d kv with
  | .mergeCand b a f => updGroup gs b a f kv.2
  | _ => gs

/-- One iteration of the key loop (lines 43-74) acting on the pair
`(output_dict, layer_groups)`. -/
def stepCore (d : TMap) (st : TMap × List (Key × GroupData)) (kv : Key × Tensor) :
    TMap × List (Key × GroupData) :=
  match classifyKey d kv with
  | .renameOut ws => (applyWrites st.1 ws, st.2)
  | .skipAlpha => st
  | .mergeCand b a f => (st.1, updGroup st.2 b a f kv.2)
  | .passthrough => (applyWrites st.1 [kv], st.2)

/-! ## The merge engine (lines 76-94) -/

/-- A row of `r` zeros. -/
def zrow (r : Nat) : List ℚ := List.replicate r 0

/-- Lines 83-84: `torch.zeros(3*h, 3*r)` followed by assigning `qB`, `kB`,
`vB` into the three diagonal `h × r` blocks, given the three row lists of
shape `h × r`. -/
def blockDiag (r : Nat) (qB kB vB : List (List ℚ)) : List (List ℚ) :=
  (qB.map (fun row => row ++ zrow r ++ zrow r)) ++
  (kB.map (fun row => zrow r ++ row ++ zrow r)) ++
  (vB.map (fun row => zrow r ++ zrow r ++ row))

/-- Line 85: `torch.cat([qA, kA, vA], dim=0)`: requires three 2-D tensors
with equal column counts; concatenates their rows. -/
def catRows (a b c : Tensor) : Option (List (List ℚ)) := do
  let (_, ca) ← a.shape2
  let (_, cb) ← b.shape2
  let (_, cc) ← c.shape2
  if ca = cb ∧ cb = cc then
    match a, b, c with
    | .mat ma, .mat mb, .mat mc => some (ma ++ mb ++ mc)
    | _, _, _ => none
  else none

/-- Lines 79-85 of the `try` block: look up the six slots (raising `KeyError`
if one is missing), unpack `h, r = qB.shape`, broadcast each factor-B source
into its `h × r` block (line 84), build the block-diagonal fused factor B
and the concatenated fused factor A.  `none` models any exception, which
line 94 turns into skipping the group. -/
def tryFuse (g : GroupData) : Option (Tensor × Tensor) := do
  let qB ← g.qB
  let kB ← g.kB
  let vB ← g.vB
  let qA ← g.qA
  let kA ← g.kA
  let vA ← g.vA
  let (h, r) ← qB.shape2
  let qBm ← qB.broadcastTo h r
  let kBm ← kB.broadcastTo h r
  let vBm ← vB.broadcastTo h r
  let A ← catRows qA kA vA
  return (.mat (blockDiag r qBm kBm vBm), .mat A)

/-- Key suffix `'.qkv.lora_B.weight'` (line 87). -/
def sQkvB : Key := kOf ".qkv.lora_B.weight"

/-- Key suffix `'.qkv.lora_A.weight'` (line 88). -/
def sQkvA : Key := kOf ".qkv.lora_A.weight"

/-- Key suffix `'.qkv.alpha'` (line 93). -/
def sQkvAlpha : Key := kOf ".qkv.alpha"

/-- Key suffix `'.to_q.alpha'` (line 91, first lookup). -/
def sToQAlpha : Key := kOf ".to_q.alpha"

/-- Key suffix `'.to_q.lora_A.alpha'` (line 91, second lookup). -/
def sToQLoraAAlpha : Key := kOf ".to_q.lora_A.alpha"

/-- Line 91: `lora_dict.get(k1) or lora_dict.get(k2)`.  Python `or` takes
the first operand's truthiness: a missing key (`None`) or a zero one-element
tensor falls through to the second lookup; `.error` models `bool()` raising
on a tensor with other than one element. -/
def getAlphaQ (d : TMap) (base : Key) : Except Unit (Option Tensor) :=
  match lookupK d (base ++ sToQAlpha) with
  | some t =>
    match t.pyBool with
    | none => .error ()
    | some true => .ok (some t)
    | some false => .ok (lookupK d (base ++ sToQLoraAAlpha))
  | none => .ok (lookupK d (base ++ sToQLoraAAlpha))

/-- Lines 77-94 for one group: the ordered `output_dict` writes it performs
and its contribution to `converted_count`.  An exception anywhere within the
`try` block (modelled by the `Option` / `Except` failures) reaches the bare
`except: continue`; note that a failure in the alpha step (line 91) happens
after the two fused writes and the count increment. -/
def processGroup (d : TMap) (base : Key) (g : GroupData) :
    List (Key × Tensor) × Nat :=
  if g.complete then
    match tryFuse g with
    | some (fB, fA) =>
      let ws := [(base ++ sQkvB, fB), (base ++ sQkvA, fA)]
      match getAlphaQ d base with
      | .ok (some t) => (ws ++ [(base ++ sQkvAlpha, t.mul3)], 1)
      | .ok none => (ws, 1)
      | .error _ => (ws, 1)
    | none => ([], 0)
  else ([], 0)

/-- Lines 76-94: the merge loop over all collected groups, in insertion
order, writing into `output_dict` and accumulating `converted_count`. -/
def mergePhase (d : TMap) (o : TMap) (gs : List (Key × GroupData)) : TMap × Nat :=
  gs.foldl
    (fun acc p =>
      let r := processGroup d p.1 p.2
      (applyWrites acc.1 r.1, acc.2 + r.2))
    (o, 0)

/-! ## The driver -/

/-- The key loop of lines 43-74 run over the whole input map. -/
def keyLoopSt (d : TMap) : TMap × List (Key × GroupData) :=
  d.foldl (stepCore d) ([], [])

/-- The `layer_groups` dict after the key loop. -/
def groupsOf (d : TMap) : List (Key × GroupData) :=
  d.foldl (gstep d) []

/-- The core transform on a loaded tensor map: the resulting `output_dict`
(the map that line 97 saves) and the returned `converted_count`. -/
def convertCore (d : TMap) : TMap × Nat :=
  let st := keyLoopSt d
  mergePhase d st.1 st.2

/-- All `output_dict` writes of the key loop, in order. -/
def keyWrites (d : TMap) : List (Key × Tensor) :=
  d.flatMap (stepWrites d)

/-- All `output_dict` writes of the merge loop, in order. -/
def mergeWrites (d : TMap) : List (Key × Tensor) :=
  (groupsOf d).flatMap (fun p => (processGroup d p.1 p.2).1)

/-- All `output_dict` writes of the whole conversion, in order. -/
def outWrites (d : TMap) : List (Key × Tensor) :=
  keyWrites d ++ mergeWrites d

/-- `progress_callback(percent, ...)` if a callback was given: the callback
acts on an external observer state `σ` (the GUI); its message argument is
part of that observation. -/
def applyCb {σ : Type u} (cb : Option (Nat → σ → σ)) (p : Nat) (s : σ) : σ :=
  match cb with
  | some f => f p s
  | none => s

/-- Loop state including the `processed` counter and the observer state. -/
structure PSt (σ : Type u) where
  out : TMap
  groups : List (Key × GroupData)
  processed : Nat
  ext : σ

/-- One iteration of lines 43-74 including lines 44-46: bump `processed`,
fire the callback on every 100th key with `10 + 40 * processed // total`,
then classify. -/
def stepKeyP {σ : Type u} (d : TMap) (total : Nat) (cb : Option (Nat → σ → σ))
    (st : PSt σ) (kv : Key × Tensor) : PSt σ :=
  let p := st.processed + 1
  let e := if p % 100 = 0 then applyCb cb (10 + 40 * p / total) st.ext else st.ext
  let og := stepCore d (st.out, st.groups) kv
  ⟨og.1, og.2, p, e⟩

/-- `'Unsupported file format'` (line 35). -/
def msgUnsupported : Key := kOf "Unsupported file format"

/-- `convert_lora(input_path, output_path, progress_callback)` (lines
25-98), with the two container-format primitives abstracted: `d` is the
tensor map the recognized-format branches of lines 30-33 would load, and on
success the returned map is what line 97 saves to `output_path` (no output
exists on the error path).  Lines 27-28 fire the callback before the format
check; line 35 raises `ValueError` for an unrecognized extension. -/
def convert_lora {σ : Type u} (path : Key) (d : TMap)
    (cb : Option (Nat → σ → σ)) (s0 : σ) : Except Key (TMap × Nat × σ) :=
  let s1 := applyCb cb 0 s0
  if endsK path (kOf ".safetensors") || endsK path (kOf ".pt") ||
      endsK path (kOf ".pth") then
    let st := d.foldl (stepKeyP d d.length cb) ⟨[], [], 0, s1⟩
    let r := mergePhase d st.out st.groups
    .ok (r.1, r.2, st.ext)
  else .error msgUnsupported

/-- The functional observables of a conversion call: the saved map and the
returned count, or `none` if the call raised. -/
def convertObs {σ : Type u} (path : Key) (d : TMap)
    (cb : Option (Nat → σ → σ)) (s0 : σ) : Option (TMap × Nat) :=
  match convert_lora path d cb s0 with
  | .ok (o, c, _) => some (o, c)
  | .error _ => none

/-! ## Lemmas: lookups and write sequences -/

/-- Left-biased choice on options. -/
def orO (a b : Option Tensor) : Option Tensor :=
  match a with
  | some v => some v
  | none => b

@[simp] theorem orO_some (v : Tensor) (b : Option Tensor) :
    orO (some v) b = some v := rfl

@[simp] theorem orO_none (b : Option Tensor) : orO none b = b := rfl

@[simp] theorem lookupK_nil (k : Key) : lookupK [] k = none := rfl

theorem lookupK_setK_self (m : TMap) (k : Key) (v : Tensor) :
    lookupK (setK m k v) k = some v := by
  induction m with
  | nil => simp [setK, lookupK]
  | cons p m ih =>
    by_cases h : p.1 = k
    · simp [setK, h, lookupK]
    · simp [setK, h, lookupK, ih]

theorem lookupK_setK_ne (m : TMap) (k k' : Key) (v : Tensor) (h : k' ≠ k) :
    lookupK (setK m k v) k' = lookupK m k' := by
  have hk : k ≠ k' := Ne.symm h
  induction m with
  | nil => simp [setK, lookupK, hk]
  | cons p m ih =>
    by_cases hp : p.1 = k
    · have hp' : p.1 ≠ k' := by rw [hp]; exact hk
      rw [show setK (p :: m) k v = (k, v) :: m by simp [setK, hp]]
      simp [lookupK, hk, hp']
    · rw [show setK (p :: m) k v = p :: setK m k v by simp [setK, hp]]
      by_cases hp' : p.1 = k'
      · simp [lookupK, hp']
      · simp [lookupK, hp', ih]

@[simp] theorem applyWrites_nil (m : TMap) : applyWrites m [] = m := rfl

theorem applyWrites_cons (m : TMap) (p : Key × Tensor) (ws : List (Key × Tensor)) :
    applyWrites m (p :: ws) = applyWrites (setK m p.1 p.2) ws := rfl

theorem applyWrites_append (m : TMap) (w1 w2 : List (Key × Tensor)) :
    applyWrites m (w1 ++ w2) = applyWrites (applyWrites m w1) w2 := by
  simp [applyWrites, List.foldl_append]

@[simp] theorem lastWrite_nil (k : Key) : lastWrite [] k = none := rfl

theorem foldl_write_eq_orO (k : Key) (ws : List (Key × Tensor)) :
    ∀ a : Option Tensor,
      ws.foldl (fun acc p => if p.1 = k then some p.2 else acc) a =
        orO (lastWrite ws k) a := by
  induction ws with
  | nil => intro a; simp [lastWrite]
  | cons p ws ih =>
    intro a
    simp only [List.foldl_cons, lastWrite]
    rw [ih, ih]
    by_cases h : p.1 = k <;> cases hl : lastWrite ws k <;> simp [h, hl]

theorem lastWrite_cons (p : Key × Tensor) (ws : List (Key × Tensor)) (k : Key) :
    lastWrite (p :: ws) k =
      orO (lastWrite ws k) (if p.1 = k then some p.2 else none) := by
  have h : lastWrite (p :: ws) k =
      ws.foldl (fun acc q => if q.1 = k then some q.2 else acc)
        (if p.1 = k then some p.2 else none) := by
    simp only [lastWrite, List.foldl_cons]
  rw [h, foldl_write_eq_orO]

theorem lastWrite_append (w1 w2 : List (Key × Tensor)) (k : Key) :
    lastWrite (w1 ++ w2) k = orO (lastWrite w2 k) (lastWrite w1 k) := by
  have h : lastWrite (w1 ++ w2) k =
      w2.foldl (fun acc q => if q.1 = k then some q.2 else acc) (lastWrite w1 k) := by
    simp only [lastWrite, List.foldl_append]
  rw [h, foldl_write_eq_orO]

theorem lastWrite_eq_none (ws : List (Key × Tensor)) (k : Key)
    (h : ∀ w ∈ ws, w.1 ≠ k) : lastWrite ws k = none := by
  induction ws with
  | nil => simp
  | cons p ws ih =>
    rw [lastWrite_cons, ih (fun w hw => h w (List.mem_cons_of_mem p hw))]
    simp [h p (List.mem_cons_self p ws)]

theorem lookupK_applyWrites (m : TMap) (ws : List (Key × Tensor)) (k : Key) :
    lookupK (applyWrites m ws) k = orO (lastWrite ws k) (lookupK m k) := by
  induction ws generalizing m with
  | nil => simp
  | cons p ws ih =>
    rw [applyWrites_cons, ih, lastWrite_cons]
    by_cases h : p.1 = k
    · have hs : lookupK (setK m p.1 p.2) k = some p.2 := by
        rw [h]; exact lookupK_setK_self m k p.2
      rw [hs]
      cases hl : lastWrite ws k <;> simp [h]
    · have hs : lookupK (setK m p.1 p.2) k = lookupK m k :=
        lookupK_setK_ne m p.1 k p.2 (fun hh => h hh.symm)
      rw [hs]
      cases hl : lastWrite ws k <;> simp [h]

/-! ## Lemmas: decomposing the two loops into their write sequences -/

theorem stepCore_eq (d : TMap) (st : TMap × List (Key × GroupData))
    (kv : Key × Tensor) :
    stepCore d st kv = (applyWrites st.1 (stepWrites d kv), gstep d st.2 kv) := by
  cases h : classifyKey d kv <;> simp [stepCore, stepWrites, gstep, h]

theorem foldl_stepCore (d : TMap) (l : List (Key × Tensor)) :
    ∀ (o : TMap) (g : List (Key × GroupData)),
      l.foldl (stepCore d) (o, g) =
        (applyWrites o (l.flatMap (stepWrites d)), l.foldl (gstep d) g) := by
  induction l with
  | nil => intro o g; simp
  | cons kv l ih =>
    intro o g
    rw [List.foldl_cons, stepCore_eq, ih]
    simp [List.flatMap_cons, applyWrites_append]

theorem keyLoopSt_eq (d : TMap) :
    keyLoopSt d = (applyWrites [] (keyWrites d), groupsOf d) := by
  simp [keyLoopSt, keyWrites, groupsOf, foldl_stepCore]

theorem mergePhase_fold (d : TMap) (gs : List (Key × GroupData)) :
    ∀ (o : TMap) (n : Nat),
      gs.foldl
          (fun acc p =>
            let r := processGroup d p.1 p.2
            (applyWrites acc.1 r.1, acc.2 + r.2))
          (o, n) =
        (applyWrites o (gs.flatMap (fun p => (processGroup d p.1 p.2).1)),
          n + (gs.map (fun p => (processGroup d p.1 p.2).2)).sum) := by
  induction gs with
  | nil => intro o n; simp
  | cons p gs ih =>
    intro o n
    rw [List.foldl_cons, ih]
    simp [List.flatMap_cons, applyWrites_append, Nat.add_assoc]

theorem mergePhase_eq (d : TMap) (o : TMap) (gs : List (Key × GroupData)) :
    mergePhase d o gs =
      (applyWrites o (gs.flatMap (fun p => (processGroup d p.1 p.2).1)),
        (gs.map (fun p => (processGroup d p.1 p.2).2)).sum) := by
  have h := mergePhase_fold d gs o 0
  simpa [mergePhase] using h

theorem convertCore_eq (d : TMap) :
    convertCore d =
      (applyWrites [] (outWrites d),
        ((groupsOf d).map (fun p => (processGroup d p.1 p.2).2)).sum) := by
  rw [convertCore, keyLoopSt_eq]
  rw [mergePhase_eq]
  simp [outWrites, keyWrites, mergeWrites, applyWrites_append]

/-- Every lookup in the final output map is the last write of that key in
the combined write sequence of the two loops. -/
theorem lookupK_convertCore (d : TMap) (k : Key) :
    lookupK (convertCore d).1 k = lastWrite (outWrites d) k := by
  rw [convertCore_eq]
  have h := lookupK_applyWrites [] (outWrites d) k
  cases hl : lastWrite (outWrites d) k <;> simpa [hl] using h

/-- The returned count is the sum of the per-group contributions. -/
theorem convertCore_count (d : TMap) :
    (convertCore d).2 =
      ((groupsOf d).map (fun p => (processGroup d p.1 p.2).2)).sum := by
  rw [convertCore_eq]

/-! ## Lemmas: key uniqueness in the produced dicts -/

theorem setK_keys (m : TMap) (k : Key) (v : Tensor) :
    (setK m k v).map Prod.fst =
      if k ∈ m.map Prod.fst then m.map Prod.fst else m.map Prod.fst ++ [k] := by
  induction m with
  | nil => simp [setK]
  | cons p m ih =>
    by_cases hp : p.1 = k
    · rw [show setK (p :: m) k v = (k, v) :: m from by simp [setK, hp]]
      have hk : k ∈ (p :: m).map Prod.fst := by
        rw [List.map_cons, hp]
        exact List.mem_cons_self k _
      rw [if_pos hk]
      simp [hp]
    · rw [show setK (p :: m) k v = p :: setK m k v from by simp [setK, hp]]
      have hne : ¬k = p.1 := fun hh => hp hh.symm
      by_cases hm : k ∈ m.map Prod.fst
      · have hk : k ∈ (p :: m).map Prod.fst := by
          rw [List.map_cons]
          exact List.mem_cons_of_mem _ hm
        rw [if_pos hk]
        simp [ih, hm]
      · have hk : k ∉ (p :: m).map Prod.fst := by
          rw [List.map_cons]
          intro hcon
          rcases List.mem_cons.mp hcon with hc | hc
          · exact hne hc
          · exact hm hc
        rw [if_neg hk]
        simp [ih, hm]

theorem setK_keys_nodup (m : TMap) (k : Key) (v : Tensor)
    (h : (m.map Prod.fst).Nodup) : ((setK m k v).map Prod.fst).Nodup := by
  rw [setK_keys]
  by_cases hm : k ∈ m.map Prod.fst
  · simpa [hm] using h
  · simp [hm, List.nodup_append, h]

theorem applyWrites_keys_nodup (m : TMap) (ws : List (Key × Tensor))
    (h : (m.map Prod.fst).Nodup) :
    ((applyWrites m ws).map Prod.fst).Nodup := by
  induction ws generalizing m with
  | nil => simpa using h
  | cons p ws ih => exact ih _ (setK_keys_nodup m p.1 p.2 h)

/-- The output map binds each key at most once. -/
theorem convertCore_keys_nodup (d : TMap) :
    ((convertCore d).1.map Prod.fst).Nodup := by
  rw [convertCore_eq]
  exact applyWrites_keys_nodup [] (outWrites d) (by simp)

theorem lookupK_mem (m : TMap) (k : Key) (v : Tensor)
    (h : lookupK m k = some v) : k ∈ m.map Prod.fst := by
  induction m with
  | nil => simp [lookupK] at h
  | cons p m ih =>
    by_cases hp : p.1 = k
    · rw [List.map_cons, hp]
      exact List.mem_cons_self k _
    · rw [show lookupK (p :: m) k = lookupK m k from by simp [lookupK, hp]] at h
      rw [List.map_cons]
      exact List.mem_cons_of_mem _ (ih h)

theorem updGroup_keys (gs : List (Key × GroupData)) (b : Key) (a : Axis)
    (f : Factor) (t : Tensor) :
    (updGroup gs b a f t).map Prod.fst =
      if b ∈ gs.map Prod.fst then gs.map Prod.fst else gs.map Prod.fst ++ [b] := by
  induction gs with
  | nil => simp [updGroup]
  | cons p gs ih =>
    by_cases hp : p.1 = b
    · rw [show updGroup (p :: gs) b a f t = (b, p.2.set a f t) :: gs from by
        simp [updGroup, hp]]
      have hb : b ∈ (p :: gs).map Prod.fst := by
        rw [List.map_cons, hp]
        exact List.mem_cons_self b _
      rw [if_pos hb]
      simp [hp]
    · rw [show updGroup (p :: gs) b a f t = p :: updGroup gs b a f t from by
        simp [updGroup, hp]]
      have hne : ¬b = p.1 := fun hh => hp hh.symm
      by_cases hm : b ∈ gs.map Prod.fst
      · have hb : b ∈ (p :: gs).map Prod.fst := by
          rw [List.map_cons]
          exact List.mem_cons_of_mem _ hm
        rw [if_pos hb]
        simp [ih, hm]
      · have hb : b ∉ (p :: gs).map Prod.fst := by
          rw [List.map_cons]
          intro hcon
          rcases List.mem_cons.mp hcon with hc | hc
          · exact hne hc
          · exact hm hc
        rw [if_neg hb]
        simp [ih, hm]

theorem gstep_keys_nodup (d : TMap) (gs : List (Key × GroupData))
    (kv : Key × Tensor) (h : (gs.map Prod.fst).Nodup) :
    ((gstep d gs kv).map Prod.fst).Nodup := by
  unfold gstep
  cases hc : classifyKey d kv <;> try exact h
  case mergeCand b a f =>
    rw [updGroup_keys]
    by_cases hm : b ∈ gs.map Prod.fst
    · simpa [hm] using h
    · simp [hm, List.nodup_append, h]

theorem foldl_gstep_nodup (d : TMap) (l : List (Key × Tensor)) :
    ∀ gs : List (Key × GroupData), (gs.map Prod.fst).Nodup →
      ((l.foldl (gstep d) gs).map Prod.fst).Nodup := by
  induction l with
  | nil => intro gs h; simpa using h
  | cons kv l ih => intro gs h; exact ih _ (gstep_keys_nodup d gs kv h)

/-- The collected group keys are pairwise distinct. -/
theorem groupsOf_keys_nodup (d : TMap) : ((groupsOf d).map Prod.fst).Nodup :=
  foldl_gstep_nodup d d [] (by simp)

/-! ## Lemmas: fused output keys determine their group -/

/-- The three key suffixes any merge-phase write uses. -/
def fusedSuffixes : List Key := [sQkvB, sQkvA, sQkvAlpha]

theorem processGroup_writes_shape (d : TMap) (b : Key) (g : GroupData) :
    ∀ w ∈ (processGroup d b g).1, ∃ s ∈ fusedSuffixes, w.1 = b ++ s := by
  intro w hw
  unfold processGroup at hw
  by_cases hc : g.complete
  · cases hf : tryFuse g with
    | none => simp [hc, hf] at hw
    | some fba =>
      obtain ⟨fB, fA⟩ := fba
      cases hA : getAlphaQ d b with
      | ok oa =>
        cases oa with
        | some t =>
          simp only [hc, hf, hA, if_true, List.mem_append, List.mem_cons,
            List.not_mem_nil, or_false] at hw
          rcases hw with (h | h) | h
          · exact ⟨sQkvB, by simp [fusedSuffixes], by rw [h]⟩
          · exact ⟨sQkvA, by simp [fusedSuffixes], by rw [h]⟩
          · exact ⟨sQkvAlpha, by simp [fusedSuffixes], by rw [h]⟩
        | none =>
          simp only [hc, hf, hA, if_true, List.mem_cons, List.not_mem_nil,
            or_false] at hw
          rcases hw with h | h
          · exact ⟨sQkvB, by simp [fusedSuffixes], by rw [h]⟩
          · exact ⟨sQkvA, by simp [fusedSuffixes], by rw [h]⟩
      | error e =>
        simp only [hc, hf, hA, if_true, List.mem_cons, List.not_mem_nil,
          or_false] at hw
        rcases hw with h | h
        · exact ⟨sQkvB, by simp [fusedSuffixes], by rw [h]⟩
        · exact ⟨sQkvA, by simp [fusedSuffixes], by rw [h]⟩
  · simp [hc] at hw

theorem processGroup_count (d : TMap) (b : Key) (g : GroupData) :
    (processGroup d b g).2 =
      if g.complete && (tryFuse g).isSome then 1 else 0 := by
  unfold processGroup
  by_cases hc : g.complete
  · cases hf : tryFuse g with
    | none => simp [hc, hf]
    | some fba =>
      cases hA : getAlphaQ d b with
      | ok oa => cases oa <;> simp [hc, hf, hA]
      | error e => simp [hc, hf, hA]
  · simp [hc]

theorem take_append_le {α : Type} (l1 l2 : List α) (n : Nat) (h : n ≤ l1.length) :
    (l1 ++ l2).take n = l1.take n :=
  List.take_append_of_le_length h

/-- If one list is the concatenation of a prefix and a suffix in two ways,
the shorter suffix is the tail of the longer one. -/
theorem suffix_of_append_eq {α : Type} (b1 b2 s1 s2 : List α)
    (h : b1 ++ s1 = b2 ++ s2) (hle : s1.length ≤ s2.length) :
    s1.reverse = s2.reverse.take s1.length := by
  have hrev : s1.reverse ++ b1.reverse = s2.reverse ++ b2.reverse := by
    have := congrArg List.reverse h
    simpa [List.reverse_append] using this
  have h1 : (s1.reverse ++ b1.reverse).take s1.length = s1.reverse := by
    have hlen : s1.length = s1.reverse.length := (List.length_reverse s1).symm
    rw [hlen, take_append_le _ _ _ (Nat.le_refl _), List.take_length]
  have h2 : (s2.reverse ++ b2.reverse).take s1.length = s2.reverse.take s1.length := by
    refine take_append_le _ _ _ ?hle
    rw [List.length_reverse]
    exact hle
  rw [← h1, hrev, h2]

/-- Two fused output keys coincide only for the same group and suffix. -/
theorem fused_key_inj {b1 b2 s1 s2 : Key} (h1 : s1 ∈ fusedSuffixes)
    (h2 : s2 ∈ fusedSuffixes) (h : b1 ++ s1 = b2 ++ s2) : b1 = b2 ∧ s1 = s2 := by
  have h1' : s1 = sQkvB ∨ s1 = sQkvA ∨ s1 = sQkvAlpha := by
    simpa [fusedSuffixes] using h1
  have h2' : s2 = sQkvB ∨ s2 = sQkvA ∨ s2 = sQkvAlpha := by
    simpa [fusedSuffixes] using h2
  rcases h1' with h1' | h1' | h1' <;> rcases h2' with h2' | h2' | h2' <;>
      subst h1' <;> subst h2'
  · exact List.append_inj' h rfl
  · exact absurd (suffix_of_append_eq b1 b2 sQkvB sQkvA h (by decide)) (by decide)
  · exact absurd (suffix_of_append_eq b2 b1 sQkvAlpha sQkvB h.symm (by decide))
      (by decide)
  · exact absurd (suffix_of_append_eq b1 b2 sQkvA sQkvB h (by decide)) (by decide)
  · exact List.append_inj' h rfl
  · exact absurd (suffix_of_append_eq b2 b1 sQkvAlpha sQkvA h.symm (by decide))
      (by decide)
  · exact absurd (suffix_of_append_eq b1 b2 sQkvAlpha sQkvB h (by decide)) (by decide)
  · exact absurd (suffix_of_append_eq b1 b2 sQkvAlpha sQkvA h (by decide)) (by decide)
  · exact List.append_inj' h rfl

/-! ## Lemmas: when fusion succeeds -/

/-- All six factor slots of a group are present (the spec's notion of a
complete group, strictly stronger than line 77's axis check). -/
def GroupData.sixPresent (g : GroupData) : Bool :=
  g.qA.isSome && g.qB.isSome && g.kA.isSome && g.kB.isSome &&
    g.vA.isSome && g.vB.isSome

/-- Shape compatibility of a six-slot group: the q-axis factor B is 2-D
(its shape `(h, r)` unpacks on line 82), the k- and v-axis factor Bs can be
broadcast into an `h × r` block by line 84's slice assignment, and the
three factor-A tensors are 2-D with a common column count (what `torch.cat`
requires along `dim=0`). -/
def shapesOk (g : GroupData) : Bool :=
  match g.qB, g.kB, g.vB, g.qA, g.kA, g.vA with
  | some qB, some kB, some vB, some qA, some kA, some vA =>
    match qB.shape2 with
    | some (h, r) =>
      broadcastableTo kB h r && broadcastableTo vB h r &&
        (match qA.shape2, kA.shape2, vA.shape2 with
         | some sa, some sb, some sc => decide (sa.2 = sb.2) && decide (sb.2 = sc.2)
         | _, _, _ => false)
    | none => false
  | _, _, _, _, _, _ => false

theorem shape2_mat (t : Tensor) (s : Nat × Nat) (h : t.shape2 = some s) :
    ∃ m, t = .mat m := by
  cases t with
  | scalar x => simp [Tensor.shape2] at h
  | mat m => exact ⟨m, rfl⟩

theorem broadcastTo_isSome (t : Tensor) (h r : Nat) :
    (t.broadcastTo h r).isSome = broadcastableTo t h r := by
  cases t with
  | scalar x => rfl
  | mat m =>
    cases hs : (Tensor.mat m).shape2 with
    | none => simp [Tensor.broadcastTo, broadcastableTo, hs]
    | some s =>
      obtain ⟨mh, mr⟩ := s
      by_cases hc : (mh = h ∨ mh = 1) ∧ (mr = r ∨ mr = 1) <;>
        simp [Tensor.broadcastTo, broadcastableTo, hs, hc]

/-- Broadcasting a matrix into a block of exactly its own shape writes the
matrix itself. -/
theorem broadcastTo_exact (m : List (List ℚ)) (h r : Nat)
    (hs : (Tensor.mat m).shape2 = some (h, r)) :
    (Tensor.mat m).broadcastTo h r = some m := by
  simp [Tensor.broadcastTo, hs, bcastBlock]

theorem catRows_isSome (a b c : Tensor) :
    (catRows a b c).isSome =
      (match a.shape2, b.shape2, c.shape2 with
       | some sa, some sb, some sc => decide (sa.2 = sb.2) && decide (sb.2 = sc.2)
       | _, _, _ => false) := by
  cases ha : a.shape2 with
  | none => simp [catRows, Option.bind, ha]
  | some sa =>
    cases hb : b.shape2 with
    | none => simp [catRows, Option.bind, ha, hb]
    | some sb =>
      cases hc : c.shape2 with
      | none => simp [catRows, Option.bind, ha, hb, hc]
      | some sc =>
        obtain ⟨ma, hma⟩ := shape2_mat a sa ha
        obtain ⟨mb, hmb⟩ := shape2_mat b sb hb
        obtain ⟨mc, hmc⟩ := shape2_mat c sc hc
        subst hma; subst hmb; subst hmc
        by_cases h1 : sa.2 = sb.2
        · by_cases h2 : sb.2 = sc.2
          · simp [catRows, ha, hb, hc, h1, h2]
          · simp [catRows, ha, hb, hc, h1, h2]
        · simp [catRows, ha, hb, hc, h1]

theorem tryFuse_isSome (g : GroupData) : (tryFuse g).isSome = shapesOk g := by
  obtain ⟨qA, qB, kA, kB, vA, vB⟩ := g
  cases qB with
  | none => simp [tryFuse, shapesOk, Option.bind]
  | some qB =>
  cases kB with
  | none => simp [tryFuse, shapesOk, Option.bind]
  | some kB =>
  cases vB with
  | none => simp [tryFuse, shapesOk, Option.bind]
  | some vB =>
  cases qA with
  | none => simp [tryFuse, shapesOk, Option.bind]
  | some qA =>
  cases kA with
  | none => simp [tryFuse, shapesOk, Option.bind]
  | some kA =>
  cases vA with
  | none => simp [tryFuse, shapesOk, Option.bind]
  | some vA =>
  cases hqB : qB.shape2 with
  | none => simp [tryFuse, shapesOk, Option.bind, hqB]
  | some hr =>
    obtain ⟨h, r⟩ := hr
    obtain ⟨qBm, hqBe⟩ := shape2_mat qB (h, r) hqB
    subst hqBe
    have hqbc : (Tensor.mat qBm).broadcastTo h r = some qBm :=
      broadcastTo_exact qBm h r hqB
    cases hkbc : kB.broadcastTo h r with
    | none =>
      have hkb : broadcastableTo kB h r = false := by
        rw [← broadcastTo_isSome, hkbc]
        rfl
      have hnone :
          tryFuse ⟨some qA, some (.mat qBm), some kA, some kB, some vA, some vB⟩
            = none := by
        simp [tryFuse, hqB, hqbc, hkbc]
      rw [hnone]
      simp [shapesOk, hqB, hkb]
    | some kBm =>
      have hkb : broadcastableTo kB h r = true := by
        rw [← broadcastTo_isSome, hkbc]
        rfl
      cases hvbc : vB.broadcastTo h r with
      | none =>
        have hvb : broadcastableTo vB h r = false := by
          rw [← broadcastTo_isSome, hvbc]
          rfl
        have hnone :
            tryFuse ⟨some qA, some (.mat qBm), some kA, some kB, some vA, some vB⟩
              = none := by
          simp [tryFuse, hqB, hqbc, hkbc, hvbc]
        rw [hnone]
        simp [shapesOk, hqB, hkb, hvb]
      | some vBm =>
        have hvb : broadcastableTo vB h r = true := by
          rw [← broadcastTo_isSome, hvbc]
          rfl
        have hiso :
            (tryFuse ⟨some qA, some (.mat qBm), some kA, some kB, some vA,
                some vB⟩).isSome
              = (catRows qA kA vA).isSome := by
          cases hA : catRows qA kA vA <;>
            simp [tryFuse, hqB, hqbc, hkbc, hvbc, hA]
        rw [hiso, catRows_isSome]
        cases hsa : qA.shape2 <;> cases hsb : kA.shape2 <;> cases hsc : vA.shape2 <;>
          simp [shapesOk, hqB, hkb, hvb, hsa, hsb, hsc]

theorem fusable_eq (g : GroupData) :
    (g.complete && (tryFuse g).isSome) = (g.sixPresent && shapesOk g) := by
  cases hso : shapesOk g
  · simp [tryFuse_isSome, hso]
  · have hsix : g.sixPresent = true := by
      obtain ⟨qA, qB, kA, kB, vA, vB⟩ := g
      cases qA <;> cases qB <;> cases kA <;> cases kB <;> cases vA <;> cases vB <;>
        simp_all [shapesOk, GroupData.sixPresent]
    have hcomp : g.complete = true := by
      obtain ⟨qA, qB, kA, kB, vA, vB⟩ := g
      cases qA <;> cases qB <;> cases kA <;> cases kB <;> cases vA <;> cases vB <;>
        simp_all [shapesOk, GroupData.complete, GroupData.axisPresent]
    simp [tryFuse_isSome, hso, hsix, hcomp]

theorem sum_map_ite_eq_countP {β : Type} (l : List β) (p : β → Bool) :
    (l.map (fun x => if p x then 1 else 0)).sum = l.countP p := by
  induction l with
  | nil => rfl
  | cons x l ih =>
    by_cases h : p x <;> simp [List.countP_cons, h, ih, Nat.add_comm]

/-! ## Lemmas: the callback does not feed back into the transform -/

theorem foldl_stepKeyP_projs {σ : Type u} (d : TMap) (total : Nat)
    (cb : Option (Nat → σ → σ)) (l : List (Key × Tensor)) :
    ∀ st : PSt σ,
      ((l.foldl (stepKeyP d total cb) st).out,
        (l.foldl (stepKeyP d total cb) st).groups) =
        l.foldl (stepCore d) (st.out, st.groups) := by
  induction l with
  | nil => intro st; rfl
  | cons kv l ih =>
    intro st
    rw [List.foldl_cons, List.foldl_cons]
    have hkv : ((stepKeyP d total cb st kv).out, (stepKeyP d total cb st kv).groups)
        = stepCore d (st.out, st.groups) kv := by
      simp [stepKeyP]
    rw [ih (stepKeyP d total cb st kv), hkv]

/-! ## Lemmas: locating one group's fused writes in the final output -/

theorem orO_none_right (a : Option Tensor) : orO a none = a := by
  cases a <;> rfl

theorem suffix_append_ne (b : Key) {s1 s2 : Key} (h : s1 ≠ s2) :
    b ++ s1 ≠ b ++ s2 :=
  fun hh => h (List.append_cancel_left hh)

theorem split_of_mem_nodup {β : Type} (l : List (Key × β)) (p : Key × β)
    (hmem : p ∈ l) (hnd : (l.map Prod.fst).Nodup) :
    ∃ l1 l2, l = l1 ++ p :: l2 ∧ (∀ q ∈ l1, q.1 ≠ p.1) ∧ ∀ q ∈ l2, q.1 ≠ p.1 := by
  obtain ⟨l1, l2, hsplit⟩ := List.append_of_mem hmem
  rw [hsplit, List.map_append, List.map_cons, List.nodup_middle] at hnd
  have hnotin := (List.nodup_cons.mp hnd).1
  rw [← List.map_append] at hnotin
  refine ⟨l1, l2, hsplit, ?_, ?_⟩
  · intro q hq hc
    apply hnotin
    rw [← hc]
    have hmem' : q ∈ l1 ++ l2 := List.mem_append.mpr (Or.inl hq)
    exact List.mem_map.mpr ⟨q, hmem', rfl⟩
  · intro q hq hc
    apply hnotin
    rw [← hc]
    have hmem' : q ∈ l1 ++ l2 := List.mem_append.mpr (Or.inr hq)
    exact List.mem_map.mpr ⟨q, hmem', rfl⟩

theorem group_split (d : TMap) (base : Key) (g : GroupData)
    (hg : (base, g) ∈ groupsOf d) :
    ∃ gs1 gs2, groupsOf d = gs1 ++ (base, g) :: gs2 ∧
      (∀ p ∈ gs1, p.1 ≠ base) ∧ ∀ p ∈ gs2, p.1 ≠ base :=
  split_of_mem_nodup (groupsOf d) (base, g) hg (groupsOf_keys_nodup d)

theorem lastWrite_groups_none (d : TMap) (gs : List (Key × GroupData))
    (base : Key) (s : Key) (hs : s ∈ fusedSuffixes)
    (hb : ∀ p ∈ gs, p.1 ≠ base) :
    lastWrite (gs.flatMap (fun p => (processGroup d p.1 p.2).1)) (base ++ s) = none := by
  apply lastWrite_eq_none
  intro w hw
  rw [List.mem_flatMap] at hw
  obtain ⟨p, hp, hwp⟩ := hw
  obtain ⟨s', hs', he⟩ := processGroup_writes_shape d p.1 p.2 w hwp
  rw [he]
  intro hcon
  exact hb p hp (fused_key_inj hs' hs hcon).1

/-- A fused key `base ++ s` of a collected group reads as: the group's own
merge write if it made one, else whatever the key loop wrote there. -/
theorem lookup_fused_key (d : TMap) (base : Key) (g : GroupData) (s : Key)
    (hs : s ∈ fusedSuffixes) (hg : (base, g) ∈ groupsOf d) :
    lookupK (convertCore d).1 (base ++ s) =
      orO (lastWrite (processGroup d base g).1 (base ++ s))
        (lastWrite (keyWrites d) (base ++ s)) := by
  obtain ⟨gs1, gs2, hsplit, hb1, hb2⟩ := group_split d base g hg
  rw [lookupK_convertCore, outWrites, lastWrite_append]
  rw [mergeWrites, hsplit, List.flatMap_append, List.flatMap_cons]
  rw [lastWrite_append, lastWrite_append]
  rw [lastWrite_groups_none d gs1 base s hs hb1,
    lastWrite_groups_none d gs2 base s hs hb2]
  cases lastWrite (processGroup d base g).1 (base ++ s) <;> simp

theorem tryFuse_complete (g : GroupData) (hf : (tryFuse g).isSome = true) :
    g.complete = true := by
  have hso : shapesOk g = true := by rw [← tryFuse_isSome]; exact hf
  obtain ⟨qA, qB, kA, kB, vA, vB⟩ := g
  cases qA <;> cases qB <;> cases kA <;> cases kB <;> cases vA <;> cases vB <;>
    simp_all [shapesOk, GroupData.complete, GroupData.axisPresent]

theorem lastWrite_all_eq (ws : List (Key × Tensor)) (k : Key) (v : Tensor)
    (hex : ∃ w ∈ ws, w.1 = k) (hall : ∀ w ∈ ws, w.1 = k → w.2 = v) :
    lastWrite ws k = some v := by
  induction ws with
  | nil =>
    obtain ⟨w, hw, _⟩ := hex
    exact absurd hw (List.not_mem_nil w)
  | cons p ws ih =>
    rw [lastWrite_cons]
    by_cases hp : p.1 = k
    · have hv := hall p (List.mem_cons_self p ws) hp
      by_cases hex2 : ∃ w ∈ ws, w.1 = k
      · rw [ih hex2 (fun w hw hwk => hall w (List.mem_cons_of_mem p hw) hwk)]
        simp
      · have hn : lastWrite ws k = none := by
          apply lastWrite_eq_none
          intro w hw hc
          exact hex2 ⟨w, hw, hc⟩
        rw [hn, hp, hv]
        simp
    · obtain ⟨w, hw, hwk⟩ := hex
      rcases List.mem_cons.mp hw with he | hw'
      · exact absurd (he ▸ hwk) hp
      · rw [ih ⟨w, hw', hwk⟩ (fun w hw hwk => hall w (List.mem_cons_of_mem p hw) hwk)]
        simp

/-- The key loop's writes to a name only the writes of `kv` can touch are
exactly `kv`'s writes to it. -/
theorem lastWrite_keyWrites_eq (d : TMap) (kv : Key × Tensor) (name : Key)
    (hmem : kv ∈ d) (hnd : (d.map Prod.fst).Nodup)
    (hothers : ∀ kv' ∈ d, kv' ≠ kv → ∀ w ∈ stepWrites d kv', w.1 ≠ name) :
    lastWrite (keyWrites d) name = lastWrite (stepWrites d kv) name := by
  obtain ⟨d1, d2, hsplit, h1, h2⟩ := split_of_mem_nodup d kv hmem hnd
  have hkw : keyWrites d =
      d1.flatMap (stepWrites d) ++ (stepWrites d kv ++ d2.flatMap (stepWrites d)) := by
    rw [keyWrites]
    set f := stepWrites d with hf
    rw [hsplit, List.flatMap_append, List.flatMap_cons]
  rw [hkw, lastWrite_append, lastWrite_append]
  have hn1 : lastWrite (d1.flatMap (stepWrites d)) name = none := by
    apply lastWrite_eq_none
    intro w hw
    rw [List.mem_flatMap] at hw
    obtain ⟨kv', hkv', hw'⟩ := hw
    refine hothers kv' (by rw [hsplit]; exact List.mem_append.mpr (Or.inl hkv'))
      (fun he => (h1 kv' hkv') (by rw [he])) w hw'
  have hn2 : lastWrite (d2.flatMap (stepWrites d)) name = none := by
    apply lastWrite_eq_none
    intro w hw
    rw [List.mem_flatMap] at hw
    obtain ⟨kv', hkv', hw'⟩ := hw
    refine hothers kv' (by
        rw [hsplit]
        exact List.mem_append.mpr (Or.inr (List.mem_cons_of_mem kv hkv')))
      (fun he => (h2 kv' hkv') (by rw [he])) w hw'
  rw [hn1, hn2, orO_none_right]
  cases lastWrite (stepWrites d kv) name <;> simp

theorem lastWrite_mergeWrites_none (d : TMap) (name : Key)
    (hmerge : ∀ p ∈ groupsOf d, ∀ w ∈ (processGroup d p.1 p.2).1, w.1 ≠ name) :
    lastWrite (mergeWrites d) name = none := by
  apply lastWrite_eq_none
  intro w hw
  rw [mergeWrites, List.mem_flatMap] at hw
  obtain ⟨p, hp, hwp⟩ := hw
  exact hmerge p hp w hwp

theorem convertCore_count_countP (d : TMap) :
    (convertCore d).2 =
      (groupsOf d).countP (fun p => p.2.sixPresent && shapesOk p.2) := by
  rw [convertCore_count]
  have hfun : (fun p : Key × GroupData => (processGroup d p.1 p.2).2) =
      fun p => if p.2.sixPresent && shapesOk p.2 then 1 else 0 := by
    funext p
    rw [processGroup_count, fusable_eq]
  rw [hfun, sum_map_ite_eq_countP]

/-! ## Claim theorems -/

/-- **C2.**  The integer returned by `convert_lora` equals the number of
distinct group keys for which all six slots (q/k/v axis × factor A/B) were
present and the tensors were shape-compatible — the q factor B is 2-D, the
k/v factor Bs are broadcastable into its `(h, r)` block per line 84, and
the factor As concatenate (`shapesOk`) — independently of how many other
keys the input map contains: the collected group keys are pairwise
distinct, and the returned count is exactly the number of collected groups
whose six slots are present and shape-compatible. -/
theorem converted_count_eq_fusable_groups (d : TMap) :
    ((groupsOf d).map Prod.fst).Nodup ∧
    (convertCore d).2 =
      (groupsOf d).countP (fun p => p.2.sixPresent && shapesOk p.2) :=
  ⟨groupsOf_keys_nodup d, convertCore_count_countP d⟩

/-- **C8.**  For every input path whose extension is not one of the
recognized container formats (`.safetensors`, `.pt`, `.pth`),
`convert_lora` raises `ValueError('Unsupported file format')` before any
processing and independently of the input map, and no output is produced
(the error branch of the result carries no tensor map to save). -/
theorem unsupported_extension_errors {σ : Type} (path : Key) (d : TMap)
    (cb : Option (Nat → σ → σ)) (s0 : σ)
    (hext : (endsK path (kOf ".safetensors") || endsK path (kOf ".pt") ||
      endsK path (kOf ".pth")) = false) :
    convert_lora path d cb s0 = .error msgUnsupported := by
  unfold convert_lora
  rw [hext]
  rfl

theorem unsupported_extension_errors_witness :
    (endsK (kOf "lora.bin") (kOf ".safetensors") || endsK (kOf "lora.bin") (kOf ".pt") ||
      endsK (kOf "lora.bin") (kOf ".pth")) = false ∧
    convert_lora (kOf "lora.bin") [(kOf "w", .scalar 1)]
      (none : Option (Nat → Unit → Unit)) () = .error msgUnsupported :=
  ⟨by decide,
    unsupported_extension_errors (kOf "lora.bin") [(kOf "w", .scalar 1)] none ()
      (by decide)⟩

/-- **C9.**  Two-run noninterference of the progress callback: for every
input map and path, running `convert_lora` with any progress callback (and
any observer state) and running it with any other callback, in particular
none, produce the same output tensor map and the same returned fused-group
count; the callback only transforms the external observer state. -/
theorem callback_noninterference {σ τ : Type} (path : Key) (d : TMap)
    (cb : Option (Nat → σ → σ)) (s0 : σ) (cb' : Option (Nat → τ → τ)) (t0 : τ) :
    convertObs path d cb s0 = convertObs path d cb' t0 := by
  have key : ∀ (υ : Type) (cbu : Option (Nat → υ → υ)) (u0 : υ),
      ((d.foldl (stepKeyP d d.length cbu) ⟨[], [], 0, applyCb cbu 0 u0⟩).out,
        (d.foldl (stepKeyP d d.length cbu) ⟨[], [], 0, applyCb cbu 0 u0⟩).groups) =
        d.foldl (stepCore d) ([], []) := by
    intro υ cbu u0
    exact foldl_stepKeyP_projs d d.length cbu d _
  have h1 := key σ cb s0
  have h2 := key τ cb' t0
  have h1o := congrArg Prod.fst h1
  have h1g := congrArg Prod.snd h1
  have h2o := congrArg Prod.fst h2
  have h2g := congrArg Prod.snd h2
  simp only at h1o h1g h2o h2g
  unfold convertObs convert_lora
  cases hr : (endsK path (kOf ".safetensors") || endsK path (kOf ".pt") ||
      endsK path (kOf ".pth"))
  · rfl
  · rw [if_pos (rfl : (true : Bool) = true), if_pos (rfl : (true : Bool) = true)]
    dsimp only
    rw [h1o, h1g, h2o, h2g]

/-- **C7.**  A key that textually matches the q/k/v merge-candidate pattern
(rule 3 of the classifier) but in which no recognized axis segment
(`to_q`/`to_k`/`to_v`) or no recognized factor segment (`lora_A`/`lora_B`)
occurs as a path segment is classified (totally, without raising) as
passthrough, and processing it writes exactly the key itself, unchanged,
into the output dict rather than dropping it. -/
theorem malformed_candidate_passthrough (d : TMap) (k : Key) (v : Tensor)
    (hm1 : hasSubK mOutProj k = false)
    (hattn : hasSubK mAttnTo k = true)
    (halpha : hasSubK mDotAlpha k = false)
    (haxis : (hasSubK (kOf ".to_q.") k || hasSubK (kOf ".to_k.") k ||
      hasSubK (kOf ".to_v.") k) = true)
    (hseg : (splitDot k).find? isAxisSeg = none ∨
      (splitDot k).find? isFactorSeg = none) :
    classifyKey d (k, v) = .passthrough ∧ stepWrites d (k, v) = [(k, v)] := by
  have hcl : classifyKey d (k, v) = .passthrough := by
    rcases hseg with hseg | hseg
    · cases hl : (splitDot k).find? isFactorSeg <;>
        simp [classifyKey, hm1, hattn, halpha, haxis, hseg, hl]
    · cases ha : (splitDot k).find? isAxisSeg <;>
        simp [classifyKey, hm1, hattn, halpha, haxis, hseg, ha]
  exact ⟨hcl, by simp [stepWrites, hcl]⟩

theorem malformed_candidate_passthrough_witness :
    (hasSubK mOutProj (kOf "l.attention.to_q.weight") = false ∧
      hasSubK mAttnTo (kOf "l.attention.to_q.weight") = true ∧
      hasSubK mDotAlpha (kOf "l.attention.to_q.weight") = false ∧
      (hasSubK (kOf ".to_q.") (kOf "l.attention.to_q.weight") ||
        hasSubK (kOf ".to_k.") (kOf "l.attention.to_q.weight") ||
        hasSubK (kOf ".to_v.") (kOf "l.attention.to_q.weight")) = true ∧
      (splitDot (kOf "l.attention.to_q.weight")).find? isFactorSeg = none) ∧
    (classifyKey [(kOf "l.attention.to_q.weight", .scalar 1)]
        (kOf "l.attention.to_q.weight", .scalar 1) = .passthrough ∧
      stepWrites [(kOf "l.attention.to_q.weight", .scalar 1)]
        (kOf "l.attention.to_q.weight", .scalar 1) =
        [(kOf "l.attention.to_q.weight", .scalar 1)]) :=
  ⟨⟨by decide, by decide, by decide, by decide, by decide⟩,
    malformed_candidate_passthrough _ _ _ (by decide) (by decide) (by decide)
      (by decide) (Or.inr (by decide))⟩

/-- Input exhibiting that a key matching the skip-alpha predicate can
reappear in the output: the first key's rename (rule 1) emits exactly the
second key's name. -/
def dReintro : TMap :=
  [ (kOf "m.attention.to_out.0.attention.to_w.alpha", .scalar 1),
    (kOf "m.attention.out.attention.to_w.alpha", .scalar 2) ]

/-- **C10 (counterexample).**  The key
`m.attention.out.attention.to_w.alpha` contains `.attention.to_` and
`.alpha` and not `.attention.to_out.0.`, so the claim says it appears
nowhere in the output under its own name; but the sibling input key
`m.attention.to_out.0.attention.to_w.alpha` is renamed by rule 1 to exactly
this name, so the output does contain it (bound to the sibling's tensor). -/
theorem skipped_alpha_key_reappears :
    (hasSubK mAttnTo (kOf "m.attention.out.attention.to_w.alpha") = true ∧
      hasSubK mDotAlpha (kOf "m.attention.out.attention.to_w.alpha") = true ∧
      hasSubK mOutProj (kOf "m.attention.out.attention.to_w.alpha") = false ∧
      lookupK dReintro (kOf "m.attention.out.attention.to_w.alpha") =
        some (.scalar 2)) ∧
    lookupK (convertCore dReintro).1 (kOf "m.attention.out.attention.to_w.alpha") =
      some (.scalar 1) :=
  ⟨⟨by decide, by decide, by decide, by decide⟩, by decide⟩

/-- **C10 (amended).**  A key containing `.attention.to_` and `.alpha` but
not `.attention.to_out.0.` is classified as skip-alpha and contributes no
write and no group capture of its own; it is therefore absent from the
output whenever no other key's rename write and no group's fused write
emits the same name (the counterexample shows a rename can reintroduce
it). -/
theorem attention_alpha_key_dropped (d : TMap) (k : Key) (v : Tensor)
    (_hmem : (k, v) ∈ d)
    (hm1 : hasSubK mOutProj k = false)
    (hattn : hasSubK mAttnTo k = true)
    (halpha : hasSubK mDotAlpha k = true)
    (hothers : ∀ kv ∈ d, ∀ w ∈ stepWrites d kv, w.1 ≠ k)
    (hmerge : ∀ p ∈ groupsOf d, ∀ w ∈ (processGroup d p.1 p.2).1, w.1 ≠ k) :
    classifyKey d (k, v) = .skipAlpha ∧ lookupK (convertCore d).1 k = none := by
  have hcl : classifyKey d (k, v) = .skipAlpha := by
    simp [classifyKey, hm1, hattn, halpha]
  refine ⟨hcl, ?_⟩
  rw [lookupK_convertCore, outWrites, lastWrite_append]
  have h1 : lastWrite (keyWrites d) k = none := by
    apply lastWrite_eq_none
    intro w hw
    rw [keyWrites, List.mem_flatMap] at hw
    obtain ⟨kv, hkv, hwkv⟩ := hw
    exact hothers kv hkv w hwkv
  rw [h1, lastWrite_mergeWrites_none d k hmerge]
  rfl

theorem attention_alpha_key_dropped_witness :
    ((kOf "l.attention.to_x.alphabet", Tensor.scalar 5) ∈
        [(kOf "l.attention.to_x.alphabet", Tensor.scalar 5)] ∧
      hasSubK mOutProj (kOf "l.attention.to_x.alphabet") = false ∧
      hasSubK mAttnTo (kOf "l.attention.to_x.alphabet") = true ∧
      hasSubK mDotAlpha (kOf "l.attention.to_x.alphabet") = true) ∧
    (classifyKey [(kOf "l.attention.to_x.alphabet", Tensor.scalar 5)]
        (kOf "l.attention.to_x.alphabet", Tensor.scalar 5) = .skipAlpha ∧
      lookupK (convertCore [(kOf "l.attention.to_x.alphabet", Tensor.scalar 5)]).1
        (kOf "l.attention.to_x.alphabet") = none) :=
  ⟨⟨by decide, by decide, by decide, by decide⟩,
    attention_alpha_key_dropped _ _ _ (by decide) (by decide) (by decide)
      (by decide) (by decide) (by decide)⟩

/-- Input exhibiting that a key containing `to_out.0` without the
surrounding `.attention.` context is not renamed. -/
def dOutNoAttn : TMap := [(kOf "x.to_out.0.weight", .scalar 1)]

/-- **C5 (counterexample).**  The key `x.to_out.0.weight` contains the
substring `to_out.0`, so the claim says the output contains `x.out.weight`
with the same tensor and lacks the original key; but the code's rule 1
requires the full marker `.attention.to_out.0.`, so this key is passed
through unchanged: the renamed key is absent and the original key is
present. -/
theorem to_out_without_attention_not_renamed :
    hasSubK (kOf "to_out.0") (kOf "x.to_out.0.weight") = true ∧
    lookupK (convertCore dOutNoAttn).1 (kOf "x.out.weight") = none ∧
    lookupK (convertCore dOutNoAttn).1 (kOf "x.to_out.0.weight") =
      some (.scalar 1) :=
  ⟨by decide, by decide, by decide⟩

theorem stepWrites_rename_head (d : TMap) (k : Key) (v : Tensor)
    (hmark : hasSubK mOutProj k = true) :
    ∃ ws', stepWrites d (k, v) = (replaceK k mToOut0 mOutRep, v) :: ws' := by
  by_cases hla : hasSubK mLoraA k
  · cases hl : lookupK d (rsplit1K k mDotLoraA ++ mDotAlpha) with
    | none => exact ⟨[], by simp [stepWrites, classifyKey, hmark, hla, hl]⟩
    | some av =>
      exact ⟨[(replaceK (rsplit1K k mDotLoraA ++ mDotAlpha) mToOut0 mOutRep, av)],
        by simp [stepWrites, classifyKey, hmark, hla, hl]⟩
  · exact ⟨[], by simp [stepWrites, classifyKey, hmark, hla]⟩

/-- **C5 (amended).**  For every input key containing the full marker
`.attention.to_out.0.`, the output map binds the key with each `.to_out.0.`
occurrence replaced by `.out.` to the same tensor, and the original key is
absent — provided no other key's writes and no group's fused writes emit
either name (later writes win on a collision, as the counterexample
family shows). -/
theorem out_projection_renamed (d : TMap) (k : Key) (v : Tensor)
    (hmem : (k, v) ∈ d) (hnd : (d.map Prod.fst).Nodup)
    (hmark : hasSubK mOutProj k = true)
    (hsib : ∀ w ∈ stepWrites d (k, v), w.1 = replaceK k mToOut0 mOutRep → w.2 = v)
    (hlater : ∀ kv ∈ d, kv ≠ (k, v) →
      ∀ w ∈ stepWrites d kv, w.1 ≠ replaceK k mToOut0 mOutRep)
    (hmerge1 : ∀ p ∈ groupsOf d, ∀ w ∈ (processGroup d p.1 p.2).1,
      w.1 ≠ replaceK k mToOut0 mOutRep)
    (horig : ∀ kv ∈ d, ∀ w ∈ stepWrites d kv, w.1 ≠ k)
    (hmerge2 : ∀ p ∈ groupsOf d, ∀ w ∈ (processGroup d p.1 p.2).1, w.1 ≠ k) :
    lookupK (convertCore d).1 (replaceK k mToOut0 mOutRep) = some v ∧
    lookupK (convertCore d).1 k = none := by
  constructor
  · rw [lookupK_convertCore, outWrites, lastWrite_append]
    rw [lastWrite_mergeWrites_none d _ hmerge1]
    rw [lastWrite_keyWrites_eq d (k, v) _ hmem hnd hlater]
    obtain ⟨ws', hws⟩ := stepWrites_rename_head d k v hmark
    have hex : ∃ w ∈ stepWrites d (k, v), w.1 = replaceK k mToOut0 mOutRep := by
      rw [hws]
      exact ⟨_, List.mem_cons_self _ _, rfl⟩
    rw [lastWrite_all_eq (stepWrites d (k, v)) _ v hex hsib]
    rfl
  · rw [lookupK_convertCore, outWrites, lastWrite_append]
    have h1 : lastWrite (keyWrites d) k = none := by
      apply lastWrite_eq_none
      intro w hw
      rw [keyWrites, List.mem_flatMap] at hw
      obtain ⟨kv, hkv, hwkv⟩ := hw
      exact horig kv hkv w hwkv
    rw [h1, lastWrite_mergeWrites_none d k hmerge2]
    rfl

/-- Input for the rename witness. -/
def dRenameW : TMap := [(kOf "a.attention.to_out.0.weight", .scalar 4)]

theorem out_projection_renamed_witness :
    ((kOf "a.attention.to_out.0.weight", Tensor.scalar 4) ∈ dRenameW ∧
      (dRenameW.map Prod.fst).Nodup ∧
      hasSubK mOutProj (kOf "a.attention.to_out.0.weight") = true) ∧
    (lookupK (convertCore dRenameW).1
        (replaceK (kOf "a.attention.to_out.0.weight") mToOut0 mOutRep) =
        some (.scalar 4) ∧
      lookupK (convertCore dRenameW).1 (kOf "a.attention.to_out.0.weight") = none) :=
  ⟨⟨by decide, by decide, by decide⟩,
    out_projection_renamed dRenameW _ _ (by decide) (by decide) (by decide)
      (by decide) (by decide) (by decide) (by decide) (by decide)⟩

/-- Input exhibiting a passthrough key overwritten by a fused write. -/
def dQkvClash : TMap :=
  [ (kOf "l.attention.to_q.lora_A.weight", .mat [[1, 0]]),
    (kOf "l.attention.to_q.lora_B.weight", .mat [[2]]),
    (kOf "l.attention.to_k.lora_A.weight", .mat [[0, 1]]),
    (kOf "l.attention.to_k.lora_B.weight", .mat [[3]]),
    (kOf "l.attention.to_v.lora_A.weight", .mat [[1, 1]]),
    (kOf "l.attention.to_v.lora_B.weight", .mat [[4]]),
    (kOf "l.attention.qkv.lora_B.weight", .scalar 7) ]

/-- **C6 (counterexample).**  The key `l.attention.qkv.lora_B.weight`
matches none of the classifier's markers, so the claim says it appears in
the output bound to its input tensor (`scalar 7`); but the merge phase of
the complete group `l.attention` later overwrites that very name with the
fused block-diagonal factor, so the output binds a different tensor. -/
theorem passthrough_key_overwritten :
    ((hasSubK mOutProj (kOf "l.attention.qkv.lora_B.weight") = false ∧
        hasSubK mAttnTo (kOf "l.attention.qkv.lora_B.weight") = false) ∧
      lookupK dQkvClash (kOf "l.attention.qkv.lora_B.weight") =
        some (.scalar 7)) ∧
    lookupK (convertCore dQkvClash).1 (kOf "l.attention.qkv.lora_B.weight") =
      some (.mat [[2, 0, 0], [0, 3, 0], [0, 0, 4]]) :=
  ⟨⟨⟨by decide, by decide⟩, by decide⟩, by decide⟩

/-- **C6 (amended).**  Every input key matching none of the q/k/v
projection markers and not the output-projection marker is copied through
and appears in the output bound to the same tensor, provided no other
key's writes and no group's fused writes emit the same name (a colliding
later write wins, as the counterexample shows). -/
theorem passthrough_key_preserved (d : TMap) (k : Key) (v : Tensor)
    (hmem : (k, v) ∈ d) (hnd : (d.map Prod.fst).Nodup)
    (hm1 : hasSubK mOutProj k = false)
    (hm2 : (hasSubK mAttnTo k && hasSubK mDotAlpha k) = false)
    (hm3 : (hasSubK mAttnTo k && (hasSubK (kOf ".to_q.") k ||
      hasSubK (kOf ".to_k.") k || hasSubK (kOf ".to_v.") k)) = false)
    (hlater : ∀ kv ∈ d, kv ≠ (k, v) → ∀ w ∈ stepWrites d kv, w.1 ≠ k)
    (hmerge : ∀ p ∈ groupsOf d, ∀ w ∈ (processGroup d p.1 p.2).1, w.1 ≠ k) :
    lookupK (convertCore d).1 k = some v := by
  have hcl : classifyKey d (k, v) = .passthrough := by
    simp [classifyKey, hm1, hm2, hm3]
  have hws : stepWrites d (k, v) = [(k, v)] := by simp [stepWrites, hcl]
  rw [lookupK_convertCore, outWrites, lastWrite_append]
  rw [lastWrite_mergeWrites_none d k hmerge]
  rw [lastWrite_keyWrites_eq d (k, v) k hmem hnd hlater, hws]
  simp [lastWrite]

theorem passthrough_key_preserved_witness :
    ((kOf "layer.mlp.weight", Tensor.scalar 1) ∈
        [(kOf "layer.mlp.weight", Tensor.scalar 1)] ∧
      hasSubK mOutProj (kOf "layer.mlp.weight") = false ∧
      hasSubK mAttnTo (kOf "layer.mlp.weight") = false) ∧
    lookupK (convertCore [(kOf "layer.mlp.weight", Tensor.scalar 1)]).1
      (kOf "layer.mlp.weight") = some (.scalar 1) :=
  ⟨⟨by decide, by decide, by decide⟩,
    passthrough_key_preserved _ _ _ (by decide) (by decide) (by decide)
      (by decide) (by decide) (by decide) (by decide)⟩

/-- A complete, shape-compatible group whose q-axis alpha is the zero
scalar, with no fallback alpha key. -/
def dAlphaZero : TMap :=
  [ (kOf "l.attention.to_q.lora_A.weight", .mat [[1, 0]]),
    (kOf "l.attention.to_q.lora_B.weight", .mat [[2]]),
    (kOf "l.attention.to_k.lora_A.weight", .mat [[0, 1]]),
    (kOf "l.attention.to_k.lora_B.weight", .mat [[3]]),
    (kOf "l.attention.to_v.lora_A.weight", .mat [[1, 1]]),
    (kOf "l.attention.to_v.lora_B.weight", .mat [[4]]),
    (kOf "l.attention.to_q.alpha", .scalar 0) ]

/-- **C3 (counterexample).**  The input holds
`l.attention.to_q.alpha = 0` (and no fallback key), and the group fuses
(count 1); the claim says the output then holds `l.attention.qkv.alpha = 0`
("for every x, including x = 0"), but Python's `or` treats a zero
one-element tensor as falsy, so line 91 falls through to the missing second
key and no alpha key is emitted at all. -/
theorem zero_alpha_not_rescaled :
    (lookupK dAlphaZero (kOf "l.attention.to_q.alpha") = some (.scalar 0) ∧
      lookupK dAlphaZero (kOf "l.attention.to_q.lora_A.alpha") = none ∧
      (convertCore dAlphaZero).2 = 1) ∧
    lookupK (convertCore dAlphaZero).1 (kOf "l.attention.qkv.alpha") = none :=
  ⟨⟨by decide, by decide, by decide⟩, by decide⟩

/-- **C3 (amended).**  For a collected group that fuses, the emitted alpha
follows Python's `x or y` truthiness on line 91: a nonzero scalar under
`<base>.to_q.alpha` wins and `<base>.qkv.alpha` is exactly three times it;
if that key is absent or holds a zero scalar, the value under
`<base>.to_q.lora_A.alpha` is used (times three, whatever its value,
including zero); if that fallback is also absent, no alpha key is emitted
and the group still fuses.  The `hkw` hypothesis excludes an unrelated
passthrough or rename writing the same output name. -/
theorem fused_alpha_rescale (d : TMap) (base : Key) (g : GroupData)
    (hg : (base, g) ∈ groupsOf d)
    (hf : (tryFuse g).isSome = true)
    (hkw : lastWrite (keyWrites d) (base ++ sQkvAlpha) = none) :
    (∀ x : ℚ, lookupK d (base ++ sToQAlpha) = some (.scalar x) → x ≠ 0 →
        lookupK (convertCore d).1 (base ++ sQkvAlpha) = some (.scalar (3 * x))) ∧
    ((lookupK d (base ++ sToQAlpha) = none ∨
        lookupK d (base ++ sToQAlpha) = some (.scalar 0)) →
      (∀ t : Tensor, lookupK d (base ++ sToQLoraAAlpha) = some t →
          lookupK (convertCore d).1 (base ++ sQkvAlpha) = some t.mul3) ∧
      (lookupK d (base ++ sToQLoraAAlpha) = none →
          lookupK (convertCore d).1 (base ++ sQkvAlpha) = none)) := by
  obtain ⟨fba, hfs⟩ := Option.isSome_iff_exists.mp hf
  obtain ⟨fB, fA⟩ := fba
  have hc : g.complete = true := tryFuse_complete g hf
  have hlf := lookup_fused_key d base g sQkvAlpha (by simp [fusedSuffixes]) hg
  rw [hkw, orO_none_right] at hlf
  have hne1 : ¬(base ++ sQkvB = base ++ sQkvAlpha) := suffix_append_ne base (by decide)
  have hne2 : ¬(base ++ sQkvA = base ++ sQkvAlpha) := suffix_append_ne base (by decide)
  have main : ∀ oa, getAlphaQ d base = .ok oa →
      lookupK (convertCore d).1 (base ++ sQkvAlpha) = oa.map Tensor.mul3 := by
    intro oa hga
    cases oa with
    | some t =>
      have hpw : processGroup d base g =
          ([(base ++ sQkvB, fB), (base ++ sQkvA, fA), (base ++ sQkvAlpha, t.mul3)],
            1) := by
        simp [processGroup, hc, hfs, hga]
      rw [hlf, hpw]
      simp [lastWrite, hne1, hne2]
    | none =>
      have hpw : processGroup d base g =
          ([(base ++ sQkvB, fB), (base ++ sQkvA, fA)], 1) := by
        simp [processGroup, hc, hfs, hga]
      rw [hlf, hpw]
      simp [lastWrite, hne1, hne2]
  refine ⟨?_, ?_⟩
  · intro x hx hx0
    have hga : getAlphaQ d base = .ok (some (.scalar x)) := by
      simp [getAlphaQ, hx, Tensor.pyBool, Tensor.item?, hx0]
    have hres := main (some (.scalar x)) hga
    simpa [Tensor.mul3, mul_comm] using hres
  · intro hq
    constructor
    · intro t ht
      have hga : getAlphaQ d base = .ok (some t) := by
        rcases hq with hq | hq
        · simp [getAlphaQ, hq, ht]
        · simp [getAlphaQ, hq, Tensor.pyBool, Tensor.item?, ht]
      simpa using main (some t) hga
    · intro ht
      have hga : getAlphaQ d base = .ok none := by
        rcases hq with hq | hq
        · simp [getAlphaQ, hq, ht]
        · simp [getAlphaQ, hq, Tensor.pyBool, Tensor.item?, ht]
      simpa using main none hga

/-- The group collected from `dAlphaW`. -/
def gAlphaW : GroupData :=
  ⟨some (.mat [[1, 0]]), some (.mat [[2]]), some (.mat [[0, 1]]),
    some (.mat [[3]]), some (.mat [[1, 1]]), some (.mat [[4]])⟩

/-- A complete group with a nonzero q-axis alpha. -/
def dAlphaW : TMap :=
  [ (kOf "l.attention.to_q.lora_A.weight", .mat [[1, 0]]),
    (kOf "l.attention.to_q.lora_B.weight", .mat [[2]]),
    (kOf "l.attention.to_k.lora_A.weight", .mat [[0, 1]]),
    (kOf "l.attention.to_k.lora_B.weight", .mat [[3]]),
    (kOf "l.attention.to_v.lora_A.weight", .mat [[1, 1]]),
    (kOf "l.attention.to_v.lora_B.weight", .mat [[4]]),
    (kOf "l.attention.to_q.alpha", .scalar 2) ]

theorem fused_alpha_rescale_witness :
    ((kOf "l.attention", gAlphaW) ∈ groupsOf dAlphaW ∧
      (tryFuse gAlphaW).isSome = true ∧
      lastWrite (keyWrites dAlphaW) (kOf "l.attention" ++ sQkvAlpha) = none ∧
      lookupK dAlphaW (kOf "l.attention" ++ sToQAlpha) = some (.scalar 2)) ∧
    lookupK (convertCore dAlphaW).1 (kOf "l.attention" ++ sQkvAlpha) =
      some (.scalar (3 * 2)) :=
  ⟨⟨by decide, by decide, by decide, by decide⟩,
    (fused_alpha_rescale dAlphaW (kOf "l.attention") gAlphaW (by decide)
      (by decide) (by decide)).1 2 (by decide) (by decide)⟩

/-- A complete, fusable group whose q-axis alpha key holds a two-element
tensor: line 91's `bool()` call on it raises, but only after lines 87-89
have already written the two fused keys and incremented the count. -/
def dAlphaBad : TMap :=
  [ (kOf "l.attention.to_q.lora_A.weight", .mat [[1, 0]]),
    (kOf "l.attention.to_q.lora_B.weight", .mat [[2]]),
    (kOf "l.attention.to_k.lora_A.weight", .mat [[0, 1]]),
    (kOf "l.attention.to_k.lora_B.weight", .mat [[3]]),
    (kOf "l.attention.to_v.lora_A.weight", .mat [[1, 1]]),
    (kOf "l.attention.to_v.lora_B.weight", .mat [[4]]),
    (kOf "l.attention.to_q.alpha", .mat [[1, 2]]) ]

/-- **C4 (counterexample).**  The group `l.attention` of `dAlphaBad` hits a
failure in step 6 of the fusion (the alpha computation: `l.attention.to_q.alpha`
holds a two-element tensor, whose `bool()` on line 91 raises, modelled by
`getAlphaQ` returning `.error`).  The claim says such a group contributes
nothing — no `.qkv.*` key, no count; but the exception fires after lines
87-89, so the output does contain both fused weight keys and the returned
count is 1 (only the alpha key is absent). -/
theorem alpha_step_failure_still_writes :
    (lookupK dAlphaBad (kOf "l.attention" ++ sToQAlpha) = some (.mat [[1, 2]]) ∧
      (Tensor.mat [[1, 2]]).pyBool = none ∧
      getAlphaQ dAlphaBad (kOf "l.attention") = .error ()) ∧
    ((convertCore dAlphaBad).2 = 1 ∧
      (lookupK (convertCore dAlphaBad).1
        (kOf "l.attention.qkv.lora_B.weight")).isSome = true ∧
      (lookupK (convertCore dAlphaBad).1
        (kOf "l.attention.qkv.lora_A.weight")).isSome = true ∧
      lookupK (convertCore dAlphaBad).1 (kOf "l.attention.qkv.alpha") = none) :=
  ⟨⟨by decide, by decide, rfl⟩, by decide, by decide, by decide, by decide⟩

/-- **C4 (amended).**  A collected group that is missing slots or whose
fusion fails before the fused writes — a missing factor slot (lines 79-80's
`KeyError`), a shape that does not unpack (line 82), a factor-B source that
line 84's broadcasting slice assignment rejects, or a `torch.cat` mismatch
(line 85) — contributes nothing: it performs no writes and adds nothing to
the count (`processGroup` yields `([], 0)`); no merge-phase write at all
targets any of its three would-be `.qkv.*` names; every key the loop
captured into a group performed no output write; the total count is still
the number of fusable groups (the other groups are processed normally —
the merge loop is a total fold, so no failure aborts it); and this group is
not counted.  A failure in the alpha step (line 91) is excluded: as the
counterexample shows, it occurs after the two fused writes and the count
increment, which therefore survive. -/
theorem failed_group_contributes_nothing (d : TMap) (base : Key) (g : GroupData)
    (hg : (base, g) ∈ groupsOf d)
    (hfail : (g.complete && (tryFuse g).isSome) = false) :
    processGroup d base g = ([], 0) ∧
    (∀ s ∈ fusedSuffixes, lastWrite (mergeWrites d) (base ++ s) = none) ∧
    (∀ kv ∈ d, ∀ a f, classifyKey d kv = .mergeCand base a f →
      stepWrites d kv = []) ∧
    (convertCore d).2 =
      (groupsOf d).countP (fun p => p.2.sixPresent && shapesOk p.2) ∧
    (g.sixPresent && shapesOk g) = false := by
  have hpz : processGroup d base g = ([], 0) := by
    by_cases hc : g.complete
    · have hn : tryFuse g = none := by
        rw [hc] at hfail
        simp only [Bool.true_and] at hfail
        exact Option.not_isSome_iff_eq_none.mp (by rw [hfail]; exact Bool.false_ne_true)
      simp [processGroup, hc, hn]
    · simp [processGroup, hc]
  refine ⟨hpz, ?_, ?_, convertCore_count_countP d, by rw [← fusable_eq]; exact hfail⟩
  · obtain ⟨gs1, gs2, hsplit, h1, h2⟩ := group_split d base g hg
    intro s hs
    have hmw : mergeWrites d =
        gs1.flatMap (fun p => (processGroup d p.1 p.2).1) ++
          ((processGroup d base g).1 ++
            gs2.flatMap (fun p => (processGroup d p.1 p.2).1)) := by
      rw [mergeWrites, hsplit, List.flatMap_append, List.flatMap_cons]
    rw [hmw, lastWrite_append, lastWrite_append,
      lastWrite_groups_none d gs1 base s hs h1,
      lastWrite_groups_none d gs2 base s hs h2, hpz]
    rfl
  · intro kv _ a f hcl
    simp [stepWrites, hcl]

/-- A group missing its v-axis factor B: line 77's axis check passes (the
v axis has a factor-A slot) but line 79 raises `KeyError`. -/
def dNoVB : TMap :=
  [ (kOf "l.attention.to_q.lora_A.weight", .mat [[1, 0]]),
    (kOf "l.attention.to_q.lora_B.weight", .mat [[2]]),
    (kOf "l.attention.to_k.lora_A.weight", .mat [[0, 1]]),
    (kOf "l.attention.to_k.lora_B.weight", .mat [[3]]),
    (kOf "l.attention.to_v.lora_A.weight", .mat [[1, 1]]) ]

/-- The partial group collected from `dNoVB`. -/
def gNoVB : GroupData :=
  ⟨some (.mat [[1, 0]]), some (.mat [[2]]), some (.mat [[0, 1]]),
    some (.mat [[3]]), some (.mat [[1, 1]]), none⟩

/-! ## Lemmas: the shape of the fused block-diagonal factor (for C1) -/

/-- Entry `(i, j)` of a row-list matrix, with zero default. -/
def entry (m : List (List ℚ)) (i j : Nat) : ℚ := (m.getD i []).getD j 0

theorem getD3_0 {α : Type} (x y z : List α) (r j : Nat) (dflt : α)
    (hx : x.length = r) (hj : j < r) :
    (x ++ y ++ z).getD j dflt = x.getD j dflt := by
  rw [List.getD_append _ _ _ _ (by rw [List.length_append, hx]; omega),
    List.getD_append _ _ _ _ (by omega)]

theorem getD3_1 {α : Type} (x y z : List α) (r j : Nat) (dflt : α)
    (hx : x.length = r) (hy : y.length = r) (hj : j < r) :
    (x ++ y ++ z).getD (r + j) dflt = y.getD j dflt := by
  rw [List.getD_append _ _ _ _ (by rw [List.length_append, hx, hy]; omega)]
  rw [List.getD_append_right _ _ _ _ (by omega : x.length ≤ r + j)]
  rw [hx, Nat.add_sub_cancel_left]

theorem getD3_2 {α : Type} (x y z : List α) (r j : Nat) (dflt : α)
    (hx : x.length = r) (hy : y.length = r) (_hj : j < r) :
    (x ++ y ++ z).getD (2 * r + j) dflt = z.getD j dflt := by
  rw [List.getD_append_right _ _ _ _
    (by rw [List.length_append, hx, hy]; omega : (x ++ y).length ≤ 2 * r + j)]
  have hidx : 2 * r + j - (x ++ y).length = j := by
    rw [List.length_append, hx, hy]; omega
  rw [hidx]

theorem getD_map_lt {α β : Type} (f : α → β) (l : List α) (i : Nat) (d : β)
    (d' : α) (h : i < l.length) : (l.map f).getD i d = f (l.getD i d') := by
  rw [List.getD_eq_getElem (l.map f) d (by simpa using h),
    List.getD_eq_getElem l d' h]
  simp

theorem zrow_getD (r j : Nat) : (zrow r).getD j 0 = 0 := by
  induction r generalizing j with
  | zero => simp [zrow]
  | succ r ih =>
    cases j with
    | zero => rfl
    | succ j =>
      rw [show zrow (r + 1) = 0 :: zrow r from by simp [zrow, List.replicate_succ]]
      rw [List.getD_cons_succ]
      exact ih j

theorem row_len (m : List (List ℚ)) (h r i : Nat) (hm : m.length = h)
    (hr : ∀ row ∈ m, row.length = r) (hi : i < h) : (m.getD i []).length = r := by
  rw [List.getD_eq_getElem m [] (by omega)]
  exact hr _ (List.getElem_mem _)

theorem shape2_spec (m : List (List ℚ)) (a b : Nat)
    (hs : (Tensor.mat m).shape2 = some (a, b)) :
    m.length = a ∧ ∀ row ∈ m, row.length = b := by
  simp only [Tensor.shape2] at hs
  split at hs
  case isTrue hall =>
    have hp := Option.some.inj hs
    have h1 : m.length = a := congrArg Prod.fst hp
    have h2 : (m.headD []).length = b := congrArg Prod.snd hp
    refine ⟨h1, ?_⟩
    intro row hrow
    have hx := List.all_eq_true.mp hall row hrow
    have hx' : row.length = (m.headD []).length := of_decide_eq_true hx
    rw [hx', h2]
  case isFalse => exact absurd hs (by simp)

theorem blockDiag_row_q (r : Nat) (qBm kBm vBm : List (List ℚ)) (h i : Nat)
    (hq : qBm.length = h) (hi : i < h) :
    (blockDiag r qBm kBm vBm).getD i [] = qBm.getD i [] ++ zrow r ++ zrow r := by
  rw [blockDiag, getD3_0 _ _ _ h i [] (by simp [hq]) hi]
  exact getD_map_lt _ qBm i [] [] (by omega)

theorem blockDiag_row_k (r : Nat) (qBm kBm vBm : List (List ℚ)) (h i : Nat)
    (hq : qBm.length = h) (hk : kBm.length = h) (hi : i < h) :
    (blockDiag r qBm kBm vBm).getD (h + i) [] =
      zrow r ++ kBm.getD i [] ++ zrow r := by
  rw [blockDiag, getD3_1 _ _ _ h i [] (by simp [hq]) (by simp [hk]) hi]
  exact getD_map_lt _ kBm i [] [] (by omega)

theorem blockDiag_row_v (r : Nat) (qBm kBm vBm : List (List ℚ)) (h i : Nat)
    (hq : qBm.length = h) (hk : kBm.length = h) (hv : vBm.length = h) (hi : i < h) :
    (blockDiag r qBm kBm vBm).getD (2 * h + i) [] =
      zrow r ++ zrow r ++ vBm.getD i [] := by
  rw [blockDiag, getD3_2 _ _ _ h i [] (by simp [hq]) (by simp [hk]) hi]
  exact getD_map_lt _ vBm i [] [] (by omega)

theorem blockDiag_length (r : Nat) (qBm kBm vBm : List (List ℚ)) (h : Nat)
    (hq : qBm.length = h) (hk : kBm.length = h) (hv : vBm.length = h) :
    (blockDiag r qBm kBm vBm).length = 3 * h := by
  simp [blockDiag, hq, hk, hv]
  omega

theorem blockDiag_rows (r : Nat) (qBm kBm vBm : List (List ℚ))
    (hqr : ∀ row ∈ qBm, row.length = r) (hkr : ∀ row ∈ kBm, row.length = r)
    (hvr : ∀ row ∈ vBm, row.length = r) :
    ∀ row ∈ blockDiag r qBm kBm vBm, row.length = 3 * r := by
  intro row hrow
  rw [blockDiag] at hrow
  rcases List.mem_append.mp hrow with hrow' | hrow'
  · rcases List.mem_append.mp hrow' with hm | hm
    · obtain ⟨a, ha, he⟩ := List.mem_map.mp hm
      rw [← he]
      simp [zrow, hqr a ha]
      omega
    · obtain ⟨a, ha, he⟩ := List.mem_map.mp hm
      rw [← he]
      simp [zrow, hkr a ha]
      omega
  · obtain ⟨a, ha, he⟩ := List.mem_map.mp hrow'
    rw [← he]
    simp [zrow, hvr a ha]
    omega

theorem blockDiag_entry_q (r : Nat) (qBm kBm vBm : List (List ℚ)) (h i j : Nat)
    (hq : qBm.length = h) (hqr : ∀ row ∈ qBm, row.length = r)
    (hi : i < h) (hj : j < r) :
    entry (blockDiag r qBm kBm vBm) i j = entry qBm i j := by
  rw [entry, blockDiag_row_q r qBm kBm vBm h i hq hi,
    getD3_0 _ _ _ r j 0 (row_len qBm h r i hq hqr hi) hj]
  rfl

theorem blockDiag_entry_k (r : Nat) (qBm kBm vBm : List (List ℚ)) (h i j : Nat)
    (hq : qBm.length = h) (hk : kBm.length = h)
    (hkr : ∀ row ∈ kBm, row.length = r) (hi : i < h) (hj : j < r) :
    entry (blockDiag r qBm kBm vBm) (h + i) (r + j) = entry kBm i j := by
  rw [entry, blockDiag_row_k r qBm kBm vBm h i hq hk hi,
    getD3_1 _ _ _ r j 0 (by simp [zrow]) (row_len kBm h r i hk hkr hi) hj]
  rfl

theorem blockDiag_entry_v (r : Nat) (qBm kBm vBm : List (List ℚ)) (h i j : Nat)
    (hq : qBm.length = h) (hk : kBm.length = h) (hv : vBm.length = h)
    (hi : i < h) (hj : j < r) :
    entry (blockDiag r qBm kBm vBm) (2 * h + i) (2 * r + j) = entry vBm i j := by
  rw [entry, blockDiag_row_v r qBm kBm vBm h i hq hk hv hi,
    getD3_2 _ _ _ r j 0 (by simp [zrow]) (by simp [zrow]) hj]
  rfl

theorem blockDiag_entry_offdiag (r : Nat) (qBm kBm vBm : List (List ℚ)) (h : Nat)
    (hq : qBm.length = h) (hqr : ∀ row ∈ qBm, row.length = r)
    (hk : kBm.length = h) (hkr : ∀ row ∈ kBm, row.length = r)
    (hv : vBm.length = h) (_hvr : ∀ row ∈ vBm, row.length = r)
    (bi bj i j : Nat) (hbi : bi < 3) (hbj : bj < 3) (hne : bi ≠ bj)
    (hi : i < h) (hj : j < r) :
    entry (blockDiag r qBm kBm vBm) (bi * h + i) (bj * r + j) = 0 := by
  have hzq := row_len qBm h r i hq hqr hi
  have hzk := row_len kBm h r i hk hkr hi
  have hzr : (zrow r).length = r := by simp [zrow]
  interval_cases bi <;> interval_cases bj
  · exact absurd rfl hne
  · rw [show (0 * h + i) = i by omega, show (1 * r + j) = r + j by omega,
      entry, blockDiag_row_q r qBm kBm vBm h i hq hi,
      getD3_1 _ _ _ r j 0 hzq hzr hj, zrow_getD]
  · rw [show (0 * h + i) = i by omega,
      entry, blockDiag_row_q r qBm kBm vBm h i hq hi,
      getD3_2 _ _ _ r j 0 hzq hzr hj, zrow_getD]
  · rw [show (1 * h + i) = h + i by omega, show (0 * r + j) = j by omega,
      entry, blockDiag_row_k r qBm kBm vBm h i hq hk hi,
      getD3_0 _ _ _ r j 0 hzr hj, zrow_getD]
  · exact absurd rfl hne
  · rw [show (1 * h + i) = h + i by omega,
      entry, blockDiag_row_k r qBm kBm vBm h i hq hk hi,
      getD3_2 _ _ _ r j 0 hzr hzk hj, zrow_getD]
  · rw [show (0 * r + j) = j by omega,
      entry, blockDiag_row_v r qBm kBm vBm h i hq hk hv hi,
      getD3_0 _ _ _ r j 0 hzr hj, zrow_getD]
  · rw [show (1 * r + j) = r + j by omega,
      entry, blockDiag_row_v r qBm kBm vBm h i hq hk hv hi,
      getD3_1 _ _ _ r j 0 hzr hzr hj, zrow_getD]
  · exact absurd rfl hne

theorem failed_group_contributes_nothing_witness :
    ((kOf "l.attention", gNoVB) ∈ groupsOf dNoVB ∧
      (gNoVB.complete && (tryFuse gNoVB).isSome) = false) ∧
    (processGroup dNoVB (kOf "l.attention") gNoVB = ([], 0) ∧
      (∀ s ∈ fusedSuffixes,
        lastWrite (mergeWrites dNoVB) (kOf "l.attention" ++ s) = none) ∧
      (∀ kv ∈ dNoVB, ∀ a f,
        classifyKey dNoVB kv = .mergeCand (kOf "l.attention") a f →
          stepWrites dNoVB kv = []) ∧
      (convertCore dNoVB).2 =
        (groupsOf dNoVB).countP (fun p => p.2.sixPresent && shapesOk p.2) ∧
      (gNoVB.sixPresent && shapesOk gNoVB) = false) :=
  ⟨⟨by decide, by decide⟩,
    failed_group_contributes_nothing dNoVB (kOf "l.attention") gNoVB
      (by decide) (by decide)⟩

/-- **C1.**  For every collected q/k/v merge group whose factor-B slots hold
2-D tensors of shape `(h, r)` and whose factor-A slots hold 2-D tensors of
shape `(r, in_features)`, the output map binds `<group_key>.qkv.lora_B.weight`
to a tensor of shape `(3h, 3r)` whose three diagonal `h × r` blocks are the
q, k, v factor-B tensors in that order and whose six off-diagonal blocks are
exactly zero, and binds `<group_key>.qkv.lora_A.weight` to the row-wise
concatenation of the q, k, v factor-A tensors, of shape `(3r, in_features)`;
the output's keys are pairwise distinct, so each fused name occurs exactly
once. -/
theorem qkv_fusion_correct (d : TMap) (base : Key) (g : GroupData)
    (h r nIn : Nat) (qBm kBm vBm qAm kAm vAm : List (List ℚ))
    (hg : (base, g) ∈ groupsOf d)
    (hqB : g.qB = some (.mat qBm)) (hqBs : (Tensor.mat qBm).shape2 = some (h, r))
    (hkB : g.kB = some (.mat kBm)) (hkBs : (Tensor.mat kBm).shape2 = some (h, r))
    (hvB : g.vB = some (.mat vBm)) (hvBs : (Tensor.mat vBm).shape2 = some (h, r))
    (hqA : g.qA = some (.mat qAm)) (hqAs : (Tensor.mat qAm).shape2 = some (r, nIn))
    (hkA : g.kA = some (.mat kAm)) (hkAs : (Tensor.mat kAm).shape2 = some (r, nIn))
    (hvA : g.vA = some (.mat vAm)) (hvAs : (Tensor.mat vAm).shape2 = some (r, nIn)) :
    ∃ M, lookupK (convertCore d).1 (base ++ sQkvB) = some (.mat M) ∧
      M.length = 3 * h ∧ (∀ row ∈ M, row.length = 3 * r) ∧
      (∀ i j, i < h → j < r →
        entry M i j = entry qBm i j ∧ entry M (h + i) (r + j) = entry kBm i j ∧
        entry M (2 * h + i) (2 * r + j) = entry vBm i j) ∧
      (∀ bi bj i j, bi < 3 → bj < 3 → bi ≠ bj → i < h → j < r →
        entry M (bi * h + i) (bj * r + j) = 0) ∧
      lookupK (convertCore d).1 (base ++ sQkvA) = some (.mat (qAm ++ kAm ++ vAm)) ∧
      (qAm ++ kAm ++ vAm).length = 3 * r ∧
      (∀ row ∈ qAm ++ kAm ++ vAm, row.length = nIn) ∧
      ((convertCore d).1.map Prod.fst).Nodup := by
  obtain ⟨hql, hqr⟩ := shape2_spec qBm h r hqBs
  obtain ⟨hkl, hkr⟩ := shape2_spec kBm h r hkBs
  obtain ⟨hvl, hvr⟩ := shape2_spec vBm h r hvBs
  obtain ⟨hqAl, hqAr⟩ := shape2_spec qAm r nIn hqAs
  obtain ⟨hkAl, hkAr⟩ := shape2_spec kAm r nIn hkAs
  obtain ⟨hvAl, hvAr⟩ := shape2_spec vAm r nIn hvAs
  have hfs : tryFuse g =
      some (.mat (blockDiag r qBm kBm vBm), .mat (qAm ++ kAm ++ vAm)) := by
    simp [tryFuse, hqB, hkB, hvB, hqA, hkA, hvA, hqBs,
      broadcastTo_exact qBm h r hqBs, broadcastTo_exact kBm h r hkBs,
      broadcastTo_exact vBm h r hvBs, catRows, hqAs, hkAs, hvAs]
  have hc : g.complete = true := tryFuse_complete g (by rw [hfs]; rfl)
  have hneAB : ¬(base ++ sQkvA = base ++ sQkvB) := suffix_append_ne base (by decide)
  have hneCB : ¬(base ++ sQkvAlpha = base ++ sQkvB) :=
    suffix_append_ne base (by decide)
  have hneBA : ¬(base ++ sQkvB = base ++ sQkvA) := suffix_append_ne base (by decide)
  have hneCA : ¬(base ++ sQkvAlpha = base ++ sQkvA) :=
    suffix_append_ne base (by decide)
  have hlwB : lastWrite (processGroup d base g).1 (base ++ sQkvB) =
      some (.mat (blockDiag r qBm kBm vBm)) := by
    cases hga : getAlphaQ d base with
    | ok oa =>
      cases oa <;> simp [processGroup, hc, hfs, hga, lastWrite, hneAB, hneCB]
    | error e => simp [processGroup, hc, hfs, hga, lastWrite, hneAB, hneCB]
  have hlwA : lastWrite (processGroup d base g).1 (base ++ sQkvA) =
      some (.mat (qAm ++ kAm ++ vAm)) := by
    cases hga : getAlphaQ d base with
    | ok oa =>
      cases oa <;> simp [processGroup, hc, hfs, hga, lastWrite, hneBA, hneCA]
    | error e => simp [processGroup, hc, hfs, hga, lastWrite, hneBA, hneCA]
  have hlB : lookupK (convertCore d).1 (base ++ sQkvB) =
      some (.mat (blockDiag r qBm kBm vBm)) := by
    rw [lookup_fused_key d base g sQkvB (by simp [fusedSuffixes]) hg, hlwB]
    rfl
  have hlA : lookupK (convertCore d).1 (base ++ sQkvA) =
      some (.mat (qAm ++ kAm ++ vAm)) := by
    rw [lookup_fused_key d base g sQkvA (by simp [fusedSuffixes]) hg, hlwA]
    rfl
  refine ⟨blockDiag r qBm kBm vBm, hlB,
    blockDiag_length r qBm kBm vBm h hql hkl hvl,
    blockDiag_rows r qBm kBm vBm hqr hkr hvr, ?_, ?_, hlA, ?_, ?_,
    convertCore_keys_nodup d⟩
  · intro i j hi hj
    exact ⟨blockDiag_entry_q r qBm kBm vBm h i j hql hqr hi hj,
      blockDiag_entry_k r qBm kBm vBm h i j hql hkl hkr hi hj,
      blockDiag_entry_v r qBm kBm vBm h i j hql hkl hvl hi hj⟩
  · intro bi bj i j hbi hbj hne hi hj
    exact blockDiag_entry_offdiag r qBm kBm vBm h hql hqr hkl hkr hvl hvr
      bi bj i j hbi hbj hne hi hj
  · rw [List.length_append, List.length_append, hqAl, hkAl, hvAl]
    omega
  · intro row hrow
    rcases List.mem_append.mp hrow with h1 | h1
    · rcases List.mem_append.mp h1 with h2 | h2
      · exact hqAr row h2
      · exact hkAr row h2
    · exact hvAr row h1

theorem qkv_fusion_correct_witness :
    ((kOf "l.attention", gAlphaW) ∈ groupsOf dAlphaW ∧
      gAlphaW.qB = some (.mat [[2]]) ∧
      (Tensor.mat [[2]]).shape2 = some (1, 1) ∧
      gAlphaW.qA = some (.mat [[1, 0]]) ∧
      (Tensor.mat [[1, 0]]).shape2 = some (1, 2)) ∧
    (∃ M, lookupK (convertCore dAlphaW).1 (kOf "l.attention" ++ sQkvB) =
        some (.mat M) ∧
      M.length = 3 * 1 ∧ (∀ row ∈ M, row.length = 3 * 1) ∧
      (∀ i j, i < 1 → j < 1 →
        entry M i j = entry [[2]] i j ∧
        entry M (1 + i) (1 + j) = entry [[3]] i j ∧
        entry M (2 * 1 + i) (2 * 1 + j) = entry [[4]] i j) ∧
      (∀ bi bj i j, bi < 3 → bj < 3 → bi ≠ bj → i < 1 → j < 1 →
        entry M (bi * 1 + i) (bj * 1 + j) = 0) ∧
      lookupK (convertCore dAlphaW).1 (kOf "l.attention" ++ sQkvA) =
        some (.mat ([[1, 0]] ++ [[0, 1]] ++ [[1, 1]])) ∧
      ([[1, 0]] ++ [[0, 1]] ++ [[1, 1]] : List (List ℚ)).length = 3 * 1 ∧
      (∀ row ∈ ([[1, 0]] ++ [[0, 1]] ++ [[1, 1]] : List (List ℚ)),
        row.length = 2) ∧
      ((convertCore dAlphaW).1.map Prod.fst).Nodup) :=
  ⟨⟨by decide, rfl, by decide, rfl, by decide⟩,
    qkv_fusion_correct dAlphaW (kOf "l.attention") gAlphaW 1 1 2
      [[2]] [[3]] [[4]] [[1, 0]] [[0, 1]] [[1, 1]]
      (by decide) rfl (by decide) rfl (by decide) rfl (by decide)
      rfl (by decide) rfl (by decide) rfl (by decide)⟩

end ZImage
